import Mathlib

/-!
Verification of the core of the `schaeppert` population-control solver.

The Rust sources are shallowly embedded: coefficients (`src/coef.rs`),
ideals, i.e. vectors of coefficients (`src/sheep.rs` / `src/ideal.rs`),
downsets, i.e. finite antichains of ideals (`src/downset.rs`), graphs
(`src/graph.rs`), integer-composition enumeration (`src/partitions.rs`),
flow matrices (`src/flow.rs`), the flow-semigroup product machinery
(`src/semigroup.rs`), strategies (`src/strategy.rs`), the NFA data model
(`src/nfa.rs`) and the solver driver (`src/solver.rs`).

Rust `HashSet`s are modelled as lists whose order is irrelevant to every
property proved here; membership plays the role of set membership.  Rust
loops that are not structurally recursive carry an explicit fuel
parameter.  Coefficient values are modelled as natural numbers; the
`u8` wrap-around semantics of the concrete representation is modelled
separately (`Coef.sum_u8`) where the claim is about overflow.
-/

namespace Schaeppert

/-- `Coef` from `src/coef.rs`: a bounded value or the top element ω. -/
inductive Coef where
  | value : ℕ → Coef
  | omega : Coef
deriving DecidableEq, Repr

/-- `C0` from `src/coef.rs`. -/
def C0 : Coef := Coef.value 0

/-- `OMEGA` from `src/coef.rs`. -/
def OMEGA : Coef := Coef.omega

namespace Coef

/-- The derived total order on `Coef`: finite values numerically, ω greatest. -/
def le : Coef → Coef → Bool
  | _, .omega => true
  | .omega, .value _ => false
  | .value x, .value y => x ≤ y

/-- Strict order derived from `le` (Rust `PartialOrd`/`Ord`). -/
def blt (a b : Coef) : Bool := le a b && !(le b a)

/-- `std::cmp::min` on `Coef` via the derived order. -/
def cmin (a b : Coef) : Coef := if le a b then a else b

/-- `impl Add for Coef`: ω-absorbing addition (finite part is exact,
see `Coef.sum_u8` for the `u8` wrap-around model). -/
def add : Coef → Coef → Coef
  | .omega, _ => .omega
  | .value _, .omega => .omega
  | .value x, .value y => .value (x + y)

/-- `impl Sub for Coef`. -/
def sub : Coef → Coef → Coef
  | .omega, _ => .omega
  | .value _, .omega => .value 0
  | .value x, .value y => .value (x - y)

/-- `Coef::round_up`: promote a finite value above the bound to ω. -/
def round_up (c : Coef) (max_finite_value : ℕ) : Coef :=
  match c with
  | .value x => if max_finite_value < x then .omega else .value x
  | .omega => .omega

/-- Accumulator loop of `impl Sum for Coef` (exact arithmetic). -/
def sum_go : ℕ → List Coef → Coef
  | acc, [] => .value acc
  | _, .omega :: _ => .omega
  | acc, .value v :: rest => sum_go (acc + v) rest

/-- `impl Sum for Coef`: short-circuits to ω on the first ω. -/
def sum (l : List Coef) : Coef := sum_go 0 l

@[simp] theorem le_omega (c : Coef) : le c .omega = true := by cases c <;> rfl

@[simp] theorem le_refl (c : Coef) : le c c = true := by
  cases c <;> simp [le]

theorem le_trans {a b c : Coef} (h1 : le a b = true) (h2 : le b c = true) :
    le a c = true := by
  cases a <;> cases b <;> cases c <;> simp_all [le] <;> omega

theorem le_value_zero {c : Coef} (h : le c (.value 0) = true) : c = .value 0 := by
  cases c <;> simp_all [le]

@[simp] theorem value_zero_le (c : Coef) : le (.value 0) c = true := by
  cases c <;> simp [le]

theorem le_round_up (c : Coef) (k : ℕ) : le c (round_up c k) = true := by
  cases c <;> simp [round_up] <;> split <;> simp [le]

theorem add_eq_omega_left {b : Coef} : add .omega b = .omega := by cases b <;> rfl

theorem le_add_mono {a b c d : Coef} (h1 : le a c = true) (h2 : le b d = true) :
    le (add a b) (add c d) = true := by
  cases a <;> cases b <;> cases c <;> cases d <;> simp_all [le, add] <;> omega

theorem cmin_le_left (a b : Coef) : le (cmin a b) a = true := by
  unfold cmin
  split
  · simp
  · rename_i h
    cases a <;> cases b <;> simp_all [le] <;> omega

theorem cmin_le_right (a b : Coef) : le (cmin a b) b = true := by
  unfold cmin
  split
  · assumption
  · simp

end Coef

/-! ### `src/partitions.rs` -/

/-- Recursive core of `partitions::get_transports`: enumerate, positions
`pointer` onward, all ways to write `c` as an ordered sum.  The source
recursion terminates because the pointer walks to the end of `current`;
`gas` carries that bound structurally (it is `current.length - pointer`
at every call, so the `gas = 0` fallback is never reached). -/
def get_transports_go : ℕ → ℕ → List ℕ → ℕ → List (List ℕ)
  | gas, c, current, pointer =>
    if c = 0 then [current]
    else if pointer + 1 < current.length then
      match gas with
      | 0 => [current.set pointer c]
      | gas + 1 =>
        ((List.range c).flatMap fun c0 =>
          get_transports_go gas (c - c0) (current.set pointer c0) (pointer + 1)) ++
          [current.set pointer c]
    else [current.set pointer c]

/-- `partitions::get_transports_rec`. -/
def get_transports_rec (c : ℕ) (current : List ℕ) (pointer : ℕ) :
    List (List ℕ) :=
  get_transports_go (current.length - pointer) c current pointer

/-- `partitions::get_transports`: all length-`len` tuples of naturals
summing to `c` (the source asserts `len > 0`; the empty case is modelled
as no tuples). -/
def get_transports (c : ℕ) (len : ℕ) : List (List ℕ) :=
  if len = 0 then [] else get_transports_rec c (List.replicate len 0) 0

theorem set_append_replicate (pre : List ℕ) (m x : ℕ) (hm : 1 ≤ m) :
    (pre ++ List.replicate m 0).set pre.length x
      = pre ++ x :: List.replicate (m - 1) 0 := by
  induction pre with
  | nil =>
    cases m with
    | zero => omega
    | succ m => simp [List.replicate_succ]
  | cons a pre ih => simp [ih]

theorem mem_get_transports_go (c m : ℕ) (pre l : List ℕ) (hm : 1 ≤ m)
    (gas : ℕ) (hgas : m ≤ gas + 1) :
    l ∈ get_transports_go gas c (pre ++ List.replicate m 0) pre.length ↔
      ∃ t, l = pre ++ t ∧ t.length = m ∧ t.sum = c := by
  induction m generalizing c pre gas with
  | zero => omega
  | succ m ih =>
  rw [get_transports_go.eq_def]
  dsimp only
  by_cases hc : c = 0
  · subst hc
    rw [if_pos rfl]
    simp only [List.mem_singleton]
    constructor
    · rintro rfl
      exact ⟨List.replicate (m + 1) 0, rfl, by simp, by simp⟩
    · rintro ⟨t, rfl, hlen, hsum⟩
      have : t = List.replicate (m + 1) 0 := by
        refine List.eq_replicate_iff.2 ⟨hlen, fun b hb => ?_⟩
        have := List.sum_eq_zero_iff.1 hsum b hb
        omega
      rw [this]
  · simp only [hc, if_false]
    have hlen : (pre ++ List.replicate (m + 1) 0).length = pre.length + m + 1 := by
      simp; omega
    by_cases hm2 : 1 ≤ m
    · rw [if_pos (by rw [hlen]; omega)]
      obtain ⟨gas, rfl⟩ : ∃ g, gas = g + 1 := ⟨gas - 1, by omega⟩
      simp only [List.mem_append, List.mem_flatMap, List.mem_range,
        List.mem_singleton]
      rw [set_append_replicate _ _ _ (by omega)]
      simp only [Nat.add_sub_cancel]
      constructor
      · rintro (⟨c0, hc0, hl⟩ | rfl)
        · rw [set_append_replicate _ _ _ (by omega)] at hl
          simp only [Nat.add_sub_cancel] at hl
          have : pre ++ c0 :: List.replicate m 0
              = (pre ++ [c0]) ++ List.replicate m 0 := by simp
          rw [this] at hl
          have hplen : pre.length + 1 = (pre ++ [c0]).length := by simp
          rw [hplen] at hl
          obtain ⟨t, rfl, htl, hts⟩ := (ih (c - c0) (pre ++ [c0]) hm2 gas (by omega)).1 hl
          exact ⟨c0 :: t, by simp, by simp [htl], by simp [hts]; omega⟩
        · exact ⟨c :: List.replicate m 0, by simp, by simp, by simp⟩
      · rintro ⟨t, rfl, htl, hts⟩
        cases t with
        | nil => simp at htl
        | cons c0 t =>
          simp at htl hts
          by_cases hc0 : c0 = c
          · right
            subst hc0
            have : t = List.replicate m 0 := by
              refine List.eq_replicate_iff.2 ⟨htl, fun b hb => ?_⟩
              have := List.sum_eq_zero_iff.1 (by omega : t.sum = 0) b hb
              omega
            rw [this]
          · left
            refine ⟨c0, by omega, ?_⟩
            rw [set_append_replicate _ _ _ (by omega)]
            simp only [Nat.add_sub_cancel]
            have : pre ++ c0 :: List.replicate m 0
                = (pre ++ [c0]) ++ List.replicate m 0 := by simp
            rw [this, show pre.length + 1 = (pre ++ [c0]).length by simp]
            exact (ih (c - c0) (pre ++ [c0]) hm2 gas (by omega)).2 ⟨t, by simp, htl, by omega⟩
    · have hm0 : m = 0 := by omega
      subst hm0
      rw [if_neg (by rw [hlen]; omega)]
      rw [set_append_replicate _ _ _ (by omega)]
      simp only [Nat.add_sub_cancel, List.replicate_zero, List.mem_singleton]
      constructor
      · rintro rfl
        exact ⟨[c], rfl, rfl, by simp⟩
      · rintro ⟨t, rfl, htl, hts⟩
        cases t with
        | nil => simp at htl
        | cons c0 t =>
          cases t with
          | nil => simp at hts; simp [hts]
          | cons _ _ => simp at htl

/-- Membership characterization of `partitions::get_transports`:
exactly the length-`len` tuples summing to `c`. -/
theorem mem_get_transports (c len : ℕ) (hlen : 1 ≤ len) (l : List ℕ) :
    l ∈ get_transports c len ↔ l.length = len ∧ l.sum = c := by
  unfold get_transports get_transports_rec
  rw [if_neg (by omega)]
  have := mem_get_transports_go c len [] l hlen (List.replicate len 0).length
    (by simp)
  simpa using this

/-- Recursive core of `partitions::get_partitions`, with the
`while current[start_index] > 0` loop of the source fused into one
function: the `mode` flag `false` plays `get_partitions_rec`, `true`
plays the while loop whose counter is the value at `start_index` (the
body decrements it by exactly one).  The source recursion terminates
along the lexicographic measure `(n - start_index, mode, counter)`;
`gas` carries that bound structurally: the call depth never exceeds
`(sum + 2) * (n + 2)` because the total sum of `current` is preserved
by the loop body, so with the gas passed by `get_partitions` the
`gas = 0` fallback is never reached. -/
def gp_go {n : ℕ} : ℕ → Bool → ℕ → {l : List ℕ // l.length = n} → ℕ →
    List (List ℕ) × {l : List ℕ // l.length = n}
  | 0, _, _, current, _ => ([], current)
  | gas + 1, false, start_index, current, _ =>
    if start_index + 1 ≥ n then ([current.val], current)
    else
      let w := gp_go gas true start_index current
        (current.val.getD start_index 0)
      (current.val :: w.1, w.2)
  | gas + 1, true, start_index, current, fuel =>
    match fuel with
    | 0 => ([], current)
    | fuel + 1 =>
      if current.val.getD start_index 0 > 0 then
        let c1 := current.val.set start_index
          (current.val.getD start_index 0 - 1)
        let c2 := c1.set (start_index + 1)
          ((c1.drop (start_index + 1)).sum + 1)
        let c3 : {l : List ℕ // l.length = n} :=
          ⟨c2.take (start_index + 2) ++
            List.replicate (c2.length - (start_index + 2)) 0, by
              have h2 : c2.length = n := by
                simp [c2, c1, current.prop]
              simp [h2, List.length_take]
              omega⟩
        let r := gp_go gas false (start_index + 1) c3 0
        let r2 := gp_go gas true start_index r.2 fuel
        (r.1 ++ r2.1, r2.2)
      else ([], current)

/-- `partitions::get_partitions`: all compositions of `x` into `len`
parts, in the source's enumeration order. -/
def get_partitions (x : ℕ) (len : ℕ) : List (List ℕ) :=
  if h : 0 < len then
    (gp_go ((x + 2) * (len + 2)) false 0
      (⟨(List.replicate len 0).set 0 x, by simp⟩ : {l : List ℕ // l.length = len})
      0).1
  else []

/-- `itertools::multi_cartesian_product`: all ways of selecting one
element from each list. -/
def multi_cartesian_product : List (List α) → List (List α)
  | [] => [[]]
  | l :: ls => l.flatMap fun a => (multi_cartesian_product ls).map fun s => a :: s

theorem mem_multi_cartesian_product {L : List (List α)} {s : List α} :
    s ∈ multi_cartesian_product L ↔ List.Forall₂ (fun a l => a ∈ l) s L := by
  induction L generalizing s with
  | nil =>
    simp [multi_cartesian_product, List.forall₂_nil_right_iff]
  | cons l ls ih =>
    simp only [multi_cartesian_product, List.mem_flatMap, List.mem_map]
    constructor
    · rintro ⟨a, ha, t, ht, rfl⟩
      exact List.Forall₂.cons ha (ih.1 ht)
    · intro h
      cases h with
      | cons ha ht => exact ⟨_, ha, _, ih.2 ht, rfl⟩

/-! ### Ideals: vectors of coefficients (`src/sheep.rs`, renamed `Ideal`
in the current sources; the API is `get`/`set`/`intersection`/
`all_omega`/`round_up`/`round_down`/`clone_and_decrease`). -/

/-- An ideal is an `n`-vector of coefficients. -/
abbrev Ideal := List Coef

namespace Ideal

/-- `Sheep::new(dimension, val)`. -/
def new (dimension : ℕ) (val : Coef) : Ideal := List.replicate dimension val

/-- Componentwise comparison (`impl PartialOrd`): `x ≤ y` iff every
zipped pair is ordered. -/
def le (x y : Ideal) : Bool :=
  (List.zip x y).all fun p => Coef.le p.1 p.2

/-- Strict comparison: `partial_cmp == Less`. -/
def blt (x y : Ideal) : Bool := le x y && !(le y x)

/-- Indexing `self.0[i]` (in-bounds in the source). -/
def get (x : Ideal) (i : ℕ) : Coef := List.getD x i C0

/-- `Sheep::set`. -/
def set (x : Ideal) (i : ℕ) (c : Coef) : Ideal := List.set x i c

/-- `Sheep::len`. -/
def len (x : Ideal) : ℕ := List.length x

/-- `Sheep::intersection`: componentwise minimum. -/
def intersection (x y : Ideal) : Ideal := List.zipWith Coef.cmin x y

/-- `Sheep::add_other` / componentwise addition (dimensions agree in the
source, enforced by `debug_assert`). -/
def add (x y : Ideal) : Ideal := List.zipWith Coef.add x y

/-- `Sheep::all_omega`: ω on every index of `succ`. -/
def all_omega (x : Ideal) (succ : List ℕ) : Bool :=
  succ.all fun i => get x i == OMEGA

/-- `Sheep::round_up`: promote values above the bound to ω. -/
def round_up (x : Ideal) (max_finite_value : ℕ) : Ideal :=
  x.map fun c => Coef.round_up c max_finite_value

/-- `Sheep::round_down`: cap finite values at the bound. -/
def round_down (x : Ideal) (upper_bound : ℕ) (dim : ℕ) : Ideal :=
  (List.range dim).foldl
    (fun v i =>
      match get v i with
      | Coef.value c => if upper_bound < c then set v i (Coef.value upper_bound) else v
      | Coef.omega => v)
    x

/-- `Sheep::some_finite_coordinate_is_larger_than`. -/
def some_finite_coordinate_is_larger_than (x : Ideal) (upper_bound : ℕ) : Bool :=
  x.any fun c => Coef.blt c OMEGA && Coef.blt (Coef.value upper_bound) c

/-- `Sheep::clone_and_decrease`: strict predecessor on axis `i`. -/
def clone_and_decrease (x : Ideal) (i : ℕ) (maximal_finite_value : ℕ) : Ideal :=
  match get x i with
  | Coef.omega => set x i (Coef.value maximal_finite_value)
  | Coef.value v => set x i (Coef.value (min (v - 1) maximal_finite_value))

theorem le_iff_coords (x y : Ideal) :
    le x y = true ↔
      ∀ i, i < min (List.length x) (List.length y) →
        Coef.le (get x i) (get y i) = true := by
  unfold le
  rw [List.all_eq_true]
  constructor
  · intro h i hi
    have hz : i < (List.zip x y).length := by
      simp [List.length_zip]
      omega
    have := h (List.zip x y)[i] (List.getElem_mem hz)
    rw [List.getElem_zip] at this
    rw [get, get, List.getD_eq_getElem x C0 (by omega),
      List.getD_eq_getElem y C0 (by omega)]
    exact this
  · intro h p hp
    obtain ⟨i, hz, heq⟩ := List.getElem_of_mem hp
    rw [← heq, List.getElem_zip]
    have hi : i < min (List.length x) (List.length y) := by
      simp [List.length_zip] at hz
      omega
    have := h i hi
    rwa [get, get, List.getD_eq_getElem x C0 (by omega),
      List.getD_eq_getElem y C0 (by omega)] at this

/-- Propositional pointwise order for same-length ideals; bridged to the
executable `Ideal.le`. -/
def PLe (x y : Ideal) : Prop :=
  List.length x = List.length y ∧
    ∀ i, i < List.length x → Coef.le (get x i) (get y i) = true

theorem le_of_ple {x y : Ideal} (h : PLe x y) : le x y = true := by
  rw [le_iff_coords]
  intro i hi
  exact h.2 i (by omega)

theorem ple_of_le {x y : Ideal} (hlen : List.length x = List.length y)
    (h : le x y = true) : PLe x y := by
  refine ⟨hlen, fun i hi => ?_⟩
  exact (le_iff_coords x y).1 h i (by omega)

theorem le_refl_ideal (x : Ideal) : le x x = true := by
  rw [le_iff_coords]
  intro i _
  exact Coef.le_refl _

theorem ple_trans {x y z : Ideal} (h1 : PLe x y) (h2 : PLe y z) : PLe x z := by
  obtain ⟨e1, p1⟩ := h1
  obtain ⟨e2, p2⟩ := h2
  refine ⟨e1.trans e2, fun i hi => ?_⟩
  exact Coef.le_trans (p1 i hi) (p2 i (by omega))

theorem ple_refl (x : Ideal) : PLe x x :=
  ⟨rfl, fun i _ => Coef.le_refl _⟩

/-- `le` into a same-length upper ideal transports along `PLe`. -/
theorem le_trans_ple_le {x y z : Ideal} (h1 : PLe x y) (h2 : le y z = true)
    (hlen : List.length y = List.length z) : le x z = true := by
  exact le_of_ple (ple_trans h1 (ple_of_le hlen h2))

end Ideal

/-! ### DownSets: antichains of ideals (`src/downset.rs`).  The Rust
`HashSet<Ideal>` is modelled as a list; membership models set
membership and every property proved is insensitive to order and
duplication. -/

/-- A downset is a finite set of ideals, denoting the union of their
downward closures. -/
abbrev DownSet := List Ideal

namespace DownSet

/-- `DownSet::contains`: some representative dominates the point. -/
def contains (D : DownSet) (source : Ideal) : Bool :=
  D.any fun x => Ideal.le source x

/-- `DownSet::is_contained_in`. -/
def is_contained_in (D other : DownSet) : Bool :=
  D.all fun x => contains other x

/-- `impl PartialEq for DownSet`: mutual containment. -/
def downset_eq (D other : DownSet) : Bool :=
  is_contained_in D other && is_contained_in other D

/-- `DownSet::insert`: no-op only on an exact member (hash-set
membership), otherwise adds the ideal. -/
def insert (D : DownSet) (ideal : Ideal) : DownSet :=
  if ideal ∈ D then D else ideal :: D

/-- `DownSet::minimize`: remove every element strictly below another. -/
def minimize (D : DownSet) : DownSet :=
  D.filter fun x => !(D.any fun y => Ideal.blt x y)

/-- `DownSet::is_empty`. -/
def is_empty (D : DownSet) : Bool := D.isEmpty

/-- `DownSet::round_down`: replace each representative that has a
finite coordinate above the bound by its rounded-down version. -/
def round_down (D : DownSet) (maximal_finite_value : ℕ) (dim : ℕ) : DownSet :=
  D.map fun s =>
    if Ideal.some_finite_coordinate_is_larger_than s maximal_finite_value then
      Ideal.round_down s maximal_finite_value dim
    else s

/-- Loop body of `DownSet::restrict_to`: keep covered ideals, expand the
others into intersections with the members of `other`. -/
def restrict_step (other : DownSet) (acc : DownSet × Bool) (ideal : Ideal) :
    DownSet × Bool :=
  if contains other ideal then (insert acc.1 ideal, acc.2)
  else (other.foldl (fun a j => insert a (Ideal.intersection ideal j)) acc.1,
        true)

/-- `DownSet::restrict_to`: intersect with another downset; returns the
new downset and the `changed` flag. -/
def restrict_to (D other : DownSet) : DownSet × Bool :=
  if (D.foldl (restrict_step other) ([], false)).2 then
    (minimize (D.foldl (restrict_step other) ([], false)).1, true)
  else (D, false)

theorem mem_insert_iff {D : DownSet} {i x : Ideal} :
    x ∈ insert D i ↔ x = i ∨ x ∈ D := by
  unfold insert
  split
  · constructor
    · exact fun h => Or.inr h
    · rintro (rfl | h)
      · assumption
      · assumption
  · simp [List.mem_cons]

theorem mem_foldl_insert {l : List Ideal} {acc : DownSet} {x : Ideal} :
    x ∈ l.foldl insert acc ↔ x ∈ acc ∨ x ∈ l := by
  induction l generalizing acc with
  | nil => simp
  | cons a l ih =>
    simp only [List.foldl_cons, ih, mem_insert_iff, List.mem_cons]
    tauto

theorem mem_foldl_insert_map {l : List Ideal} {g : Ideal → Ideal}
    {acc : DownSet} {x : Ideal} :
    x ∈ l.foldl (fun a j => insert a (g j)) acc ↔
      x ∈ acc ∨ ∃ j ∈ l, x = g j := by
  induction l generalizing acc with
  | nil => simp
  | cons a l ih =>
    simp only [List.foldl_cons, ih, mem_insert_iff, List.mem_cons]
    constructor
    · rintro ((rfl | h) | ⟨j, hj, rfl⟩)
      · exact Or.inr ⟨a, Or.inl rfl, rfl⟩
      · exact Or.inl h
      · exact Or.inr ⟨j, Or.inr hj, rfl⟩
    · rintro (h | ⟨j, (rfl | hj), rfl⟩)
      · exact Or.inl (Or.inr h)
      · exact Or.inl (Or.inl rfl)
      · exact Or.inr ⟨j, hj, rfl⟩

theorem mem_minimize {D : DownSet} {x : Ideal} (h : x ∈ minimize D) : x ∈ D :=
  List.mem_of_mem_filter h

theorem mem_minimize_iff {D : DownSet} {x : Ideal} :
    x ∈ minimize D ↔ x ∈ D ∧ ∀ y ∈ D, Ideal.blt x y = false := by
  unfold minimize
  rw [List.mem_filter]
  simp only [Bool.not_eq_true', List.any_eq_false]
  constructor
  · exact fun ⟨h1, h2⟩ => ⟨h1, fun y hy => by simpa using h2 y hy⟩
  · exact fun ⟨h1, h2⟩ => ⟨h1, fun y hy => by simpa using h2 y hy⟩

/-- No two members of a minimized downset are strictly comparable. -/
theorem minimize_antichain (D : DownSet) :
    ∀ x ∈ minimize D, ∀ y ∈ minimize D, Ideal.blt x y = false := by
  intro x hx y hy
  exact (mem_minimize_iff.1 hx).2 y (mem_minimize hy)

theorem contains_of_mem_of_ple {D : DownSet} {x j : Ideal} (hj : j ∈ D)
    (h : Ideal.le x j = true) : contains D x = true := by
  unfold contains
  rw [List.any_eq_true]
  exact ⟨j, hj, h⟩

theorem contains_spec {D : DownSet} {x : Ideal} (h : contains D x = true) :
    ∃ j ∈ D, Ideal.le x j = true := by
  unfold contains at h
  rw [List.any_eq_true] at h
  exact h

end DownSet

/-! ### `src/graph.rs` (the deterministic-subgraph cache is unused by
the verified operations and is omitted). -/

/-- A directed graph over `dim` vertices; the Rust edge `HashSet` is a
duplicate-free list. -/
structure Graph where
  dim : ℕ
  edges : List (ℕ × ℕ)
deriving DecidableEq, Repr

namespace Graph

/-- `Graph::from_vec` (the `HashSet` construction deduplicates edges). -/
def from_vec (dim : ℕ) (vec : List (ℕ × ℕ)) : Graph :=
  ⟨dim, vec.eraseDups⟩

/-- `Graph::get_successors`. -/
def get_successors (g : Graph) (i : ℕ) : List ℕ :=
  g.edges.filterMap fun e => if e.1 = i then some e.2 else none

end Graph

theorem length_filter_le_of_imp (l : List α) (p q : α → Bool)
    (h : ∀ a ∈ l, q a = true → p a = true) :
    (l.filter q).length ≤ (l.filter p).length := by
  induction l with
  | nil => simp
  | cons a l ih =>
    have ihl := ih fun b hb => h b (List.mem_cons_of_mem a hb)
    by_cases hq : q a = true
    · rw [List.filter_cons_of_pos hq,
        List.filter_cons_of_pos (h a (List.mem_cons_self a l) hq)]
      simpa using ihl
    · rw [List.filter_cons_of_neg (by simpa using hq)]
      by_cases hp : p a = true
      · rw [List.filter_cons_of_pos hp]
        simp
        omega
      · rw [List.filter_cons_of_neg (by simpa using hp)]
        exact ihl

theorem length_filter_lt_of_imp (l : List α) (p q : α → Bool)
    (h : ∀ a ∈ l, q a = true → p a = true)
    (a : α) (hal : a ∈ l) (hap : p a = true) (haq : q a = false) :
    (l.filter q).length < (l.filter p).length := by
  induction l with
  | nil => simp at hal
  | cons b l ih =>
    rcases List.mem_cons.1 hal with rfl | hal'
    · rw [List.filter_cons_of_neg (by simp [haq]), List.filter_cons_of_pos hap]
      have := length_filter_le_of_imp l p q fun c hc => h c (List.mem_cons_of_mem a hc)
      simp
      omega
    · have ihl := ih (fun c hc => h c (List.mem_cons_of_mem b hc)) hal'
      by_cases hq : q b = true
      · rw [List.filter_cons_of_pos hq,
          List.filter_cons_of_pos (h b (List.mem_cons_self b l) hq)]
        simpa using ihl
      · rw [List.filter_cons_of_neg (by simpa using hq)]
        by_cases hp : p b = true
        · rw [List.filter_cons_of_pos hp]
          simp
          omega
        · rw [List.filter_cons_of_neg (by simpa using hp)]
          exact ihl

namespace Ideal

@[simp] theorem blt_irrefl (x : Ideal) : blt x x = false := by
  simp [blt, le_refl_ideal]

theorem blt_trans {n : ℕ} {x y z : Ideal}
    (hx : x.length = n) (hy : y.length = n) (hz : z.length = n)
    (h1 : blt x y = true) (h2 : blt y z = true) : blt x z = true := by
  unfold blt at *
  rw [Bool.and_eq_true] at h1 h2
  obtain ⟨hxy, hnyx⟩ := h1
  obtain ⟨hyz, hnzy⟩ := h2
  rw [Bool.and_eq_true]
  constructor
  · exact le_of_ple (ple_trans (ple_of_le (by omega) hxy) (ple_of_le (by omega) hyz))
  · simp only [Bool.not_eq_true'] at hnyx hnzy ⊢
    by_contra hzx
    simp only [Bool.not_eq_false] at hzx
    have : le z y = true :=
      le_of_ple (ple_trans (ple_of_le (by omega) hzx) (ple_of_le (by omega) hxy))
    simp [this] at hnzy

/-- `le` from an arbitrary point through a `PLe` step on representatives. -/
theorem le_of_le_of_ple {x i j : Ideal} (h1 : le x i = true) (h2 : PLe i j) :
    le x j = true := by
  rw [le_iff_coords] at h1 ⊢
  intro k hk
  obtain ⟨hij, hpt⟩ := h2
  refine Coef.le_trans (h1 k (by omega)) (hpt k (by omega))

theorem ple_intersection_left {i j : Ideal} (hlen : i.length = j.length) :
    PLe (intersection i j) i := by
  refine ⟨by simp [intersection]; omega, fun k hk => ?_⟩
  have hk' : k < i.length := by
    simp [intersection] at hk
    omega
  rw [get, get, List.getD_eq_getElem _ C0 (by simpa [intersection] using hk),
    List.getD_eq_getElem _ C0 hk']
  simp only [intersection]
  rw [List.getElem_zipWith]
  exact Coef.cmin_le_left _ _

end Ideal

namespace DownSet

/-- Every member of a downset of dimension `n` has a maximal member
above it, and maximal members survive `minimize`. -/
theorem exists_maximal_above {n : ℕ} (D : DownSet)
    (hD : ∀ J ∈ D, J.length = n) :
    ∀ I ∈ D, ∃ J ∈ D, Ideal.le I J = true ∧ J ∈ minimize D := by
  intro I hI
  generalize hcnt : (D.filter fun y => Ideal.blt I y).length = cnt
  induction cnt using Nat.strong_induction_on generalizing I with
  | _ cnt ih =>
  by_cases h0 : (D.filter fun y => Ideal.blt I y).length = 0
  · refine ⟨I, hI, Ideal.le_refl_ideal I, ?_⟩
    rw [mem_minimize_iff]
    refine ⟨hI, fun y hy => ?_⟩
    by_contra hblt
    simp only [Bool.not_eq_false] at hblt
    have : y ∈ D.filter fun y => Ideal.blt I y := List.mem_filter.2 ⟨hy, hblt⟩
    rw [List.length_eq_zero] at h0
    simp [h0] at this
  · have hne : (D.filter fun y => Ideal.blt I y) ≠ [] := by
      intro hnil
      rw [hnil] at h0
      simp at h0
    obtain ⟨y, hyf⟩ := List.exists_mem_of_ne_nil _ hne
    have hyD := (List.mem_filter.1 hyf).1
    have hIy := (List.mem_filter.1 hyf).2
    have himp : ∀ a ∈ D, Ideal.blt y a = true → Ideal.blt I a = true :=
      fun a ha hya =>
        Ideal.blt_trans (hD I hI) (hD y hyD) (hD a ha) hIy hya
    have hlt : (D.filter fun a => Ideal.blt y a).length <
        (D.filter fun a => Ideal.blt I a).length :=
      length_filter_lt_of_imp D _ _ himp y hyD hIy (Ideal.blt_irrefl y)
    obtain ⟨J, hJD, hyJ, hJmin⟩ :=
      ih _ (by omega) y hyD rfl
    refine ⟨J, hJD, ?_, hJmin⟩
    have hIy' : Ideal.le I y = true := by
      have h := hIy
      unfold Ideal.blt at h
      rw [Bool.and_eq_true] at h
      exact h.1
    exact Ideal.le_of_le_of_ple hIy'
      (Ideal.ple_of_le (by rw [hD y hyD, hD J hJD]) hyJ)

/-- `minimize` preserves the downward closure. -/
theorem contains_minimize {n : ℕ} (D : DownSet)
    (hD : ∀ J ∈ D, J.length = n) (x : Ideal) :
    contains (minimize D) x = contains D x := by
  by_cases h : contains D x = true
  · obtain ⟨I, hI, hxI⟩ := contains_spec h
    obtain ⟨J, hJD, hIJ, hJmin⟩ := exists_maximal_above D hD I hI
    rw [h]
    exact contains_of_mem_of_ple hJmin
      (Ideal.le_of_le_of_ple hxI (Ideal.ple_of_le (by rw [hD I hI, hD J hJD]) hIJ))
  · rw [Bool.not_eq_true] at h
    rw [h]
    rw [Bool.eq_false_iff]
    intro hcm
    obtain ⟨J, hJ, hle⟩ := contains_spec hcm
    have : contains D x = true := contains_of_mem_of_ple (mem_minimize hJ) hle
    simp [this] at h

/-- Members of the `restrict_to` accumulator are old members or
intersections with members of `other`. -/
theorem mem_restrict_foldl (l : List Ideal) (other : DownSet)
    (acc : DownSet × Bool) (x : Ideal)
    (h : x ∈ (l.foldl (restrict_step other) acc).1) :
    x ∈ acc.1 ∨ ∃ I ∈ l, x = I ∨ ∃ J ∈ other, x = Ideal.intersection I J := by
  induction l generalizing acc with
  | nil => exact Or.inl h
  | cons a l ih =>
    rw [List.foldl_cons] at h
    rcases ih _ h with hacc | ⟨I, hIl, hx⟩
    · unfold restrict_step at hacc
      by_cases hc : contains other a = true
      · rw [if_pos hc] at hacc
        rcases mem_insert_iff.1 hacc with heq | hacc'
        · exact Or.inr ⟨a, List.mem_cons_self a l, Or.inl heq⟩
        · exact Or.inl hacc'
      · rw [if_neg hc] at hacc
        rcases mem_foldl_insert_map.1 hacc with hacc' | ⟨J, hJ, rfl⟩
        · exact Or.inl hacc'
        · exact Or.inr ⟨a, List.mem_cons_self a l, Or.inr ⟨J, hJ, rfl⟩⟩
    · exact Or.inr ⟨I, List.mem_cons_of_mem a hIl, hx⟩

/-- Core of claim C8: `restrict_to` only shrinks the downward closure. -/
theorem contains_restrict_to {n : ℕ} (D other : DownSet) (x : Ideal)
    (hD : ∀ I ∈ D, I.length = n) (hother : ∀ J ∈ other, J.length = n)
    (h : contains (restrict_to D other).1 x = true) :
    contains D x = true := by
  unfold restrict_to at h
  split at h
  · obtain ⟨M, hM, hxM⟩ := contains_spec h
    have hM' := mem_minimize hM
    rcases mem_restrict_foldl D other ([], false) M hM' with habs | ⟨I, hID, hMI⟩
    · simp at habs
    · rcases hMI with rfl | ⟨J, hJ, rfl⟩
      · exact contains_of_mem_of_ple hID hxM
      · refine contains_of_mem_of_ple hID (Ideal.le_of_le_of_ple hxM ?_)
        exact Ideal.ple_intersection_left (by rw [hD I hID, hother J hJ])
  · exact h

end DownSet

/-! ### The safe-pre-image pipeline (`src/downset.rs`). -/

/-- `downset::get_choices`: the possible one-step images of `value`
tokens sitting on a state with the given successors, as vectors of
dimension `dim`. -/
def get_choices (dim : ℕ) (value : Coef) (successors : List ℕ) :
    List Ideal :=
  match value with
  | Coef.value 0 => [Ideal.new dim C0]
  | Coef.omega =>
    [successors.foldl (fun base succ => Ideal.set base succ OMEGA)
      (Ideal.new dim C0)]
  | Coef.value c =>
    (get_transports c successors.length).map fun transport =>
      (successors.zip transport).foldl
        (fun v p => Ideal.set v p.1 (Coef.value p.2)) (Ideal.new dim C0)

namespace DownSet

/-- `DownSet::get_image`: all sums of one choice per state, rounded up. -/
def get_image (dim : ℕ) (dom : Ideal) (edges : Graph)
    (max_finite_value : ℕ) : DownSet :=
  let choices := (List.range dom.length).map fun index =>
    get_choices dim (Ideal.get dom index) (edges.get_successors index)
  ((multi_cartesian_product choices).map fun x =>
      Ideal.round_up (x.foldl Ideal.add (Ideal.new dim C0)) max_finite_value).foldl
    insert []

/-- `DownSet::is_safe_with_roundup`: no token on a dead end, and every
rounded-up image lies in the downset. -/
def is_safe_with_roundup (D : DownSet) (candidate : Ideal) (edges : Graph)
    (maximal_finite_coordinate : ℕ) : Bool :=
  let dim := edges.dim
  let lose_ideal := (List.range dim).any fun i =>
    !(Ideal.get candidate i == C0) && (edges.get_successors i).isEmpty
  if lose_ideal then false
  else (get_image dim candidate edges maximal_finite_coordinate).all fun x =>
    contains D x

/-- `downset::compute_possible_coefs`: expand the per-axis candidate
descriptions and form their cartesian product. -/
def compute_possible_coefs (possible_coefs : List (List Coef)) :
    List Ideal :=
  multi_cartesian_product
    (possible_coefs.map fun v =>
      let coe := (v.filterMap fun x =>
        match x with
        | Coef.omega => none
        | Coef.value c => some c).head?
      let is_omega : Bool := v.contains OMEGA
      match is_omega, coe with
      | false, none => [C0]
      | true, none => [OMEGA]
      | false, some c => (List.range (c + 1)).map Coef.value
      | true, some c => OMEGA :: (List.range (c + 1)).map Coef.value)

/-- The candidate enumeration of `DownSet::safe_pre_image`: per axis,
`ω` when admissible, together with the range up to the maximal useful
finite coordinate; the cartesian product is taken by
`compute_possible_coefs` (memoized in the source). -/
def safe_pre_image_candidates (D : DownSet) (edges : Graph)
    (maximal_finite_coordinate : ℕ) : List Ideal :=
  let dim := edges.dim
  let is_omega_possible := (List.range dim).map fun i =>
    let succ := edges.get_successors i
    !succ.isEmpty && D.any fun ideal => Ideal.all_omega ideal succ
  let max_finite_coordsj := (List.range dim).map fun j =>
    (D.map fun ideal =>
      match Ideal.get ideal j with
      | Coef.omega => maximal_finite_coordinate
      | Coef.value c => c).foldr max 0
  let max_finite_coordsi := (List.range dim).map fun i =>
    ((edges.get_successors i).map fun j =>
      min maximal_finite_coordinate (max_finite_coordsj.getD j 0)).foldr max 0
  let possible_coefs := (List.range dim).map fun i =>
    match max_finite_coordsi.getD i 0, is_omega_possible.getD i false with
    | 0, false => [Coef.value 0]
    | 0, true => [OMEGA]
    | c, false => [Coef.value c]
    | c, true => [OMEGA, Coef.value c]
  compute_possible_coefs possible_coefs

/-- `DownSet::safe_pre_image`. -/
def safe_pre_image (D : DownSet) (edges : Graph)
    (maximal_finite_coordinate : ℕ) : DownSet :=
  if edges.dim = 0 || is_empty D then []
  else
    minimize
      (((safe_pre_image_candidates D edges maximal_finite_coordinate).filter
          fun candidate =>
            is_safe_with_roundup D candidate edges maximal_finite_coordinate).foldl
        insert [])

end DownSet

/-! ### Pointwise-order infrastructure for the safe-pre-image proof. -/

namespace Ideal

theorem get_new (dim : ℕ) (i : ℕ) : get (new dim C0) i = C0 := by
  unfold get new
  by_cases h : i < dim
  · rw [List.getD_eq_getElem _ _ (by simpa using h)]
    simp
  · rw [List.getD_eq_default _ _ (by simpa using h)]

@[simp] theorem length_new (dim : ℕ) (c : Coef) : (new dim c).length = dim := by
  simp [new]

@[simp] theorem length_set (x : Ideal) (i : ℕ) (c : Coef) :
    (set x i c).length = x.length := by
  simp [set]

theorem get_set_eq (x : Ideal) (i : ℕ) (c : Coef) (h : i < x.length) :
    get (set x i c) i = c := by
  unfold get set
  rw [List.getD_eq_getElem _ _ (by simpa using h)]
  rw [List.getElem_set_eq (by simpa using h)]

theorem get_set_ne (x : Ideal) (i k : ℕ) (c : Coef) (h : k ≠ i) :
    get (set x i c) k = get x k := by
  unfold get set
  by_cases hk : k < x.length
  · rw [List.getD_eq_getElem _ _ (by simpa using hk),
      List.getD_eq_getElem _ _ hk]
    rw [List.getElem_set_ne (by omega)]
  · rw [List.getD_eq_default _ _ (by simpa using hk),
      List.getD_eq_default _ _ (by simpa using hk)]

theorem get_set_oob (x : Ideal) (i k : ℕ) (c : Coef) (h : x.length ≤ i) :
    get (set x i c) k = get x k := by
  unfold set
  rw [List.set_eq_of_length_le (by simpa using h)]

theorem ple_set_mono {b1 b2 : Ideal} (h : PLe b1 b2) (i : ℕ) {c d : Coef}
    (hcd : Coef.le c d = true) : PLe (set b1 i c) (set b2 i d) := by
  obtain ⟨hlen, hpt⟩ := h
  refine ⟨by simp [hlen], fun k hk => ?_⟩
  simp only [length_set] at hk
  by_cases hik : k = i
  · subst hik
    by_cases hin : k < b1.length
    · rw [get_set_eq _ _ _ hin, get_set_eq _ _ _ (by omega)]
      exact hcd
    · rw [get_set_oob _ _ _ _ (by omega), get_set_oob _ _ _ _ (by omega)]
      exact hpt k hk
  · rw [get_set_ne _ _ _ _ hik, get_set_ne _ _ _ _ hik]
    exact hpt k hk

/-- Two set-folds over positionally equal index lists with pointwise
dominated written values preserve the pointwise order. -/
theorem ple_foldl_set {ps qs : List (ℕ × Coef)}
    (hrel : List.Forall₂ (fun p q => p.1 = q.1 ∧ Coef.le p.2 q.2 = true) ps qs)
    {b1 b2 : Ideal} (hb : PLe b1 b2) :
    PLe (ps.foldl (fun v p => set v p.1 p.2) b1)
      (qs.foldl (fun v p => set v p.1 p.2) b2) := by
  induction hrel generalizing b1 b2 with
  | nil => exact hb
  | cons hpq _ ih =>
    rename_i p q ps' qs' _
    simp only [List.foldl_cons]
    exact ih (by rw [← hpq.1]; exact ple_set_mono hb p.1 hpq.2)

theorem ple_add_mono {a b c d : Ideal} (h1 : PLe a b) (h2 : PLe c d) :
    PLe (add a c) (add b d) := by
  obtain ⟨e1, p1⟩ := h1
  obtain ⟨e2, p2⟩ := h2
  refine ⟨by simp [add]; omega, fun i hi => ?_⟩
  simp only [add, List.length_zipWith] at hi
  rw [add, add, get, get,
    List.getD_eq_getElem _ _ (by simpa using hi),
    List.getD_eq_getElem _ _ (by simp; omega)]
  rw [List.getElem_zipWith, List.getElem_zipWith]
  have hia : i < a.length := by omega
  have hic : i < c.length := by omega
  refine Coef.le_add_mono ?_ ?_
  · have := p1 i hia
    rwa [get, get, List.getD_eq_getElem _ _ hia,
      List.getD_eq_getElem _ _ (by omega)] at this
  · have := p2 i hic
    rwa [get, get, List.getD_eq_getElem _ _ hic,
      List.getD_eq_getElem _ _ (by omega)] at this

theorem ple_foldl_add {l1 l2 : List Ideal}
    (hrel : List.Forall₂ PLe l1 l2) {b1 b2 : Ideal} (hb : PLe b1 b2) :
    PLe (l1.foldl add b1) (l2.foldl add b2) := by
  induction hrel generalizing b1 b2 with
  | nil => exact hb
  | cons hpq _ ih =>
    simp only [List.foldl_cons]
    exact ih (ple_add_mono hb hpq)

theorem get_round_up (x : Ideal) (k i : ℕ) :
    get (round_up x k) i = Coef.round_up (get x i) k := by
  unfold get round_up
  by_cases h : i < x.length
  · rw [List.getD_eq_getElem _ _ (by simpa using h),
      List.getD_eq_getElem _ _ h]
    simp
  · rw [List.getD_eq_default _ _ (by simpa using h),
      List.getD_eq_default _ _ (by simpa using h)]
    simp [Coef.round_up, C0]

theorem ple_round_up (x : Ideal) (k : ℕ) : PLe x (round_up x k) := by
  refine ⟨by simp [round_up], fun i hi => ?_⟩
  rw [get_round_up]
  exact Coef.le_round_up _ _

@[simp] theorem length_round_up (x : Ideal) (k : ℕ) :
    (round_up x k).length = x.length := by
  simp [round_up]

theorem length_foldl_add {l : List Ideal} {b : Ideal} {dim : ℕ}
    (hb : b.length = dim) (hl : ∀ s ∈ l, List.length s = dim) :
    (l.foldl add b).length = dim := by
  induction l generalizing b with
  | nil => exact hb
  | cons a l ih =>
    simp only [List.foldl_cons]
    refine ih ?_ fun s hs => hl s (List.mem_cons_of_mem a hs)
    have := hl a (List.mem_cons_self a l)
    simp [add]
    omega

end Ideal

theorem length_foldl_set_nat {l : List (ℕ × ℕ)} {b : Ideal} :
    (l.foldl (fun v p => Ideal.set v p.1 (Coef.value p.2)) b).length
      = b.length := by
  induction l generalizing b with
  | nil => rfl
  | cons a l ih => simp [ih]

theorem length_foldl_set_omega {l : List ℕ} {b : Ideal} :
    (l.foldl (fun v s => Ideal.set v s OMEGA) b).length = b.length := by
  induction l generalizing b with
  | nil => rfl
  | cons a l ih => simp [ih]

/-- Every choice vector has the ambient dimension. -/
theorem length_of_mem_get_choices {dim : ℕ} {v : Coef} {succ : List ℕ}
    {s : Ideal} (h : s ∈ get_choices dim v succ) : s.length = dim := by
  unfold get_choices at h
  match v with
  | Coef.value 0 =>
    simp at h
    simp [h]
  | Coef.omega =>
    simp at h
    rw [h]
    rw [length_foldl_set_omega]
    simp
  | Coef.value (c + 1) =>
    simp at h
    obtain ⟨t, _, rfl⟩ := h
    rw [length_foldl_set_nat]
    simp

/-- Rewriting the scatter fold as the canonical `(index, coefficient)`
set-fold. -/
theorem scatter_eq_canonical (succ : List ℕ) (t : List ℕ) (b : Ideal) :
    (succ.zip t).foldl (fun v p => Ideal.set v p.1 (Coef.value p.2)) b
      = ((succ.zip t).map fun p => (p.1, Coef.value p.2)).foldl
          (fun v p => Ideal.set v p.1 p.2) b := by
  rw [List.foldl_map]

theorem broadcast_eq_canonical (succ : List ℕ) (b : Ideal) :
    succ.foldl (fun v s => Ideal.set v s OMEGA) b
      = (succ.map fun s => (s, OMEGA)).foldl
          (fun v p => Ideal.set v p.1 p.2) b := by
  rw [List.foldl_map]

theorem forall2_scatter_broadcast (succ t : List ℕ) (hlen : t.length = succ.length) :
    List.Forall₂ (fun p q => p.1 = q.1 ∧ Coef.le p.2 q.2 = true)
      ((succ.zip t).map fun p => (p.1, Coef.value p.2))
      (succ.map fun s => (s, OMEGA)) := by
  induction succ generalizing t with
  | nil => simp
  | cons a succ ih =>
    cases t with
    | nil => simp at hlen
    | cons w t =>
      simp only [List.zip_cons_cons, List.map_cons]
      exact List.Forall₂.cons ⟨rfl, Coef.le_omega _⟩ (ih t (by simpa using hlen))

theorem forall2_scatter_scatter (succ t t' : List ℕ)
    (hlen : t.length = succ.length) (hlen' : t'.length = succ.length)
    (hle : ∀ i < succ.length, t.getD i 0 ≤ t'.getD i 0) :
    List.Forall₂ (fun p q => p.1 = q.1 ∧ Coef.le p.2 q.2 = true)
      ((succ.zip t).map fun p => (p.1, Coef.value p.2))
      ((succ.zip t').map fun p => (p.1, Coef.value p.2)) := by
  induction succ generalizing t t' with
  | nil => simp
  | cons a succ ih =>
    cases t with
    | nil => simp at hlen
    | cons w t =>
      cases t' with
      | nil => simp at hlen'
      | cons w' t' =>
        simp only [List.zip_cons_cons, List.map_cons]
        refine List.Forall₂.cons ⟨rfl, ?_⟩ ?_
        · have := hle 0 (by simp)
          simpa [Coef.le] using this
        · refine ih t t' (by simpa using hlen) (by simpa using hlen') ?_
          intro i hi
          simpa using hle (i + 1) (by simpa using hi)

/-- Domination of one-step choices: every choice of the smaller
coefficient is pointwise below some choice of the larger one. -/
theorem get_choices_dominated {dim : ℕ} {xv cv : Coef} {succ : List ℕ}
    (hle : Coef.le xv cv = true)
    (hsucc : cv ≠ C0 → succ ≠ []) :
    ∀ s ∈ get_choices dim xv succ,
      ∃ e ∈ get_choices dim cv succ, Ideal.PLe s e := by
  intro s hs
  match hcv : cv with
  | Coef.value 0 =>
    have hxv : xv = Coef.value 0 := Coef.le_value_zero hle
    rw [hxv] at hs
    unfold get_choices at hs ⊢
    simp at hs ⊢
    rw [hs]
    exact Ideal.ple_refl _
  | Coef.omega =>
    refine ⟨succ.foldl (fun v s => Ideal.set v s OMEGA) (Ideal.new dim C0),
      by unfold get_choices; simp, ?_⟩
    match hxv : xv with
    | Coef.omega =>
      unfold get_choices at hs
      simp at hs
      rw [hs]
      exact Ideal.ple_refl _
    | Coef.value 0 =>
      unfold get_choices at hs
      simp at hs
      rw [hs]
      refine ⟨?_, fun i hi => ?_⟩
      · rw [length_foldl_set_omega]
      · rw [Ideal.get_new]
        exact Coef.value_zero_le _
    | Coef.value (c + 1) =>
      unfold get_choices at hs
      simp at hs
      obtain ⟨t, ht, rfl⟩ := hs
      by_cases hsn : succ.length = 0
      · rw [List.length_eq_zero] at hsn
        rw [hsn] at ht
        simp [get_transports] at ht
      · have hchar := (mem_get_transports (c + 1) succ.length (by omega) t).1 ht
        rw [scatter_eq_canonical, broadcast_eq_canonical]
        exact Ideal.ple_foldl_set
          (forall2_scatter_broadcast succ t hchar.1) (Ideal.ple_refl _)
  | Coef.value (w + 1) =>
    have hne : succ ≠ [] := hsucc (by simp [C0])
    have hsl : 1 ≤ succ.length := by
      cases succ with
      | nil => simp at hne
      | cons a l => simp
    match hxv : xv with
    | Coef.omega => simp [Coef.le] at hle
    | Coef.value 0 =>
      unfold get_choices at hs
      simp at hs
      refine ⟨((succ.zip ((w + 1) :: List.replicate (succ.length - 1) 0)).foldl
          (fun v p => Ideal.set v p.1 (Coef.value p.2)) (Ideal.new dim C0)), ?_, ?_⟩
      · unfold get_choices
        simp only [List.mem_map]
        refine ⟨(w + 1) :: List.replicate (succ.length - 1) 0, ?_, rfl⟩
        rw [mem_get_transports _ _ hsl]
        constructor
        · simp
          omega
        · simp
      · rw [hs]
        refine ⟨?_, fun i hi => ?_⟩
        · rw [length_foldl_set_nat]
        · rw [Ideal.get_new]
          exact Coef.value_zero_le _
    | Coef.value (v + 1) =>
      unfold get_choices at hs
      simp at hs
      obtain ⟨t, ht, rfl⟩ := hs
      have hchar := (mem_get_transports (v + 1) succ.length (by omega) t).1 ht
      have hvw : v + 1 ≤ w + 1 := by simpa [Coef.le] using hle
      obtain ⟨t0, trest, rfl⟩ : ∃ t0 trest, t = t0 :: trest := by
        cases t with
        | nil =>
          exfalso
          have := hchar.1
          simp at this
          omega
        | cons t0 trest => exact ⟨t0, trest, rfl⟩
      refine ⟨((succ.zip ((t0 + (w - v)) :: trest)).foldl
          (fun v p => Ideal.set v p.1 (Coef.value p.2)) (Ideal.new dim C0)), ?_, ?_⟩
      · unfold get_choices
        simp only [List.mem_map]
        refine ⟨(t0 + (w - v)) :: trest, ?_, rfl⟩
        rw [mem_get_transports _ _ hsl]
        have h1 := hchar.1
        have h2 := hchar.2
        simp at h1 h2 ⊢
        omega
      · rw [scatter_eq_canonical, scatter_eq_canonical]
        refine Ideal.ple_foldl_set ?_ (Ideal.ple_refl _)
        refine forall2_scatter_scatter succ _ _ hchar.1 (by simpa using hchar.1) ?_
        intro i hi
        cases i with
        | zero => simp
        | succ i => simp

theorem le_of_ple_of_le {x y z : Ideal} (h1 : Ideal.PLe x y)
    (h2 : Ideal.le y z = true) : Ideal.le x z = true := by
  rw [Ideal.le_iff_coords] at h2 ⊢
  obtain ⟨hlen, hpt⟩ := h1
  intro i hi
  exact Coef.le_trans (hpt i (by omega)) (h2 i (by omega))

theorem forall2_choice {α : Type _} {R : α → α → Prop} :
    ∀ {sel : List α} {LL LC : List (List α)},
      List.Forall₂ (fun a l => a ∈ l) sel LL →
      List.Forall₂ (fun lx lc => ∀ s ∈ lx, ∃ e ∈ lc, R s e) LL LC →
      ∃ es, List.Forall₂ (fun a l => a ∈ l) es LC ∧ List.Forall₂ R sel es := by
  intro sel
  induction sel with
  | nil =>
    intro LL LC h1 h2
    cases h1
    cases h2
    exact ⟨[], List.Forall₂.nil, List.Forall₂.nil⟩
  | cons a sel' ih =>
    intro LL LC h1 h2
    cases h1 with
    | cons hmem h1' =>
      cases h2 with
      | cons hdom h2' =>
        obtain ⟨e, he, hre⟩ := hdom a hmem
        obtain ⟨es, hes1, hes2⟩ := ih h1' h2'
        exact ⟨e :: es, List.Forall₂.cons he hes1, List.Forall₂.cons hre hes2⟩

/-- The semantic side of claim C1, following the claim's words: the
one-step images of `x` under every deterministic resolution of the
graph: each finite count on a state is distributed among that state's
successors (every composition), a state holding ω broadcasts ω to all
its successors.  (This is the code's image construction without the
round-up applied by `is_safe_with_roundup`.) -/
def resolution_images (edges : Graph) (x : Ideal) : List Ideal :=
  (multi_cartesian_product ((List.range x.length).map fun i =>
      get_choices edges.dim (Ideal.get x i) (edges.get_successors i))).map
    fun sel => sel.foldl Ideal.add (Ideal.new edges.dim C0)

/-- The right-hand side of claim C1: no token sits on a state with no
successors, and every deterministic resolution of the graph lands in
the downward closure of `D`. -/
def all_resolutions_land (D : DownSet) (edges : Graph) (x : Ideal) : Bool :=
  ((List.range edges.dim).all fun i =>
    (Ideal.get x i == C0) || !(edges.get_successors i).isEmpty) &&
  (resolution_images edges x).all fun img => DownSet.contains D img

theorem length_of_mem_compute_possible_coefs {pcs : List (List Coef)}
    {s : Ideal} (h : s ∈ DownSet.compute_possible_coefs pcs) :
    s.length = pcs.length := by
  unfold DownSet.compute_possible_coefs at h
  have := mem_multi_cartesian_product.1 h
  have hlen := this.length_eq
  simpa using hlen

/-- A candidate that passes `is_safe_with_roundup` dominates only
configurations whose every deterministic resolution lands in `D`. -/
theorem all_resolutions_land_of_safe {D : DownSet} {c x : Ideal}
    {edges : Graph} {K : ℕ}
    (hD : ∀ I ∈ D, I.length = edges.dim)
    (hx : x.length = edges.dim) (hc : c.length = edges.dim)
    (hsafe : DownSet.is_safe_with_roundup D c edges K = true)
    (hxc : Ideal.le x c = true) :
    all_resolutions_land D edges x = true := by
  unfold DownSet.is_safe_with_roundup at hsafe
  dsimp only at hsafe
  by_cases hlose0 : ((List.range edges.dim).any fun i =>
      !(Ideal.get c i == C0) && (edges.get_successors i).isEmpty) = true
  case pos =>
    rw [if_pos hlose0] at hsafe
    exact absurd hsafe (by simp)
  rw [Bool.not_eq_true] at hlose0
  rw [if_neg (by rw [hlose0]; simp)] at hsafe
  have hlose := hlose0
  rw [List.any_eq_false] at hlose
  rw [List.all_eq_true] at hsafe
  have hcle : ∀ i, i < edges.dim → Coef.le (Ideal.get x i) (Ideal.get c i) = true := by
    intro i hi
    exact (Ideal.le_iff_coords x c).1 hxc i (by omega)
  have hcsucc : ∀ i, i < edges.dim → Ideal.get c i ≠ C0 →
      edges.get_successors i ≠ [] := by
    intro i hi hne hnil
    apply hlose i (List.mem_range.2 hi)
    rw [hnil]
    simp [hne]
  unfold all_resolutions_land
  rw [Bool.and_eq_true]
  constructor
  · rw [List.all_eq_true]
    intro i hi
    rw [List.mem_range] at hi
    by_cases hxi : Ideal.get x i = C0
    · simp [hxi]
    · have hci : Ideal.get c i ≠ C0 := by
        intro hc0
        have := hcle i hi
        rw [hc0] at this
        exact hxi (Coef.le_value_zero this)
      have hne := hcsucc i hi hci
      simp only [Bool.or_eq_true, Bool.not_eq_true']
      right
      cases hsl : edges.get_successors i with
      | nil => exact absurd hsl hne
      | cons a l => simp
  · rw [List.all_eq_true]
    intro img himg
    unfold resolution_images at himg
    obtain ⟨sel, hsel, rfl⟩ := List.mem_map.1 himg
    have hsel2 := mem_multi_cartesian_product.1 hsel
    -- Build a dominating selection among the candidate's choices.
    have hdom : List.Forall₂ (fun lx lc => ∀ s ∈ lx, ∃ e ∈ lc, Ideal.PLe s e)
        ((List.range x.length).map fun i =>
          get_choices edges.dim (Ideal.get x i) (edges.get_successors i))
        ((List.range c.length).map fun i =>
          get_choices edges.dim (Ideal.get c i) (edges.get_successors i)) := by
      rw [hx, hc]
      rw [List.forall₂_map_left_iff, List.forall₂_map_right_iff]
      rw [List.forall₂_same]
      intro i hi
      rw [List.mem_range] at hi
      exact get_choices_dominated (hcle i hi) (hcsucc i hi)
    obtain ⟨es, hes1, hes2⟩ := forall2_choice hsel2 hdom
    have hesmem : es ∈ multi_cartesian_product
        ((List.range c.length).map fun i =>
          get_choices edges.dim (Ideal.get c i) (edges.get_successors i)) :=
      mem_multi_cartesian_product.2 hes1
    have himg' : Ideal.round_up (es.foldl Ideal.add (Ideal.new edges.dim C0)) K
        ∈ DownSet.get_image edges.dim c edges K := by
      unfold DownSet.get_image
      rw [DownSet.mem_foldl_insert]
      right
      exact List.mem_map.2 ⟨es, hesmem, rfl⟩
    have hcont := hsafe _ himg'
    have hple : Ideal.PLe (sel.foldl Ideal.add (Ideal.new edges.dim C0))
        (Ideal.round_up (es.foldl Ideal.add (Ideal.new edges.dim C0)) K) :=
      Ideal.ple_trans (Ideal.ple_foldl_add hes2 (Ideal.ple_refl _))
        (Ideal.ple_round_up _ _)
    obtain ⟨J, hJ, hleJ⟩ := DownSet.contains_spec hcont
    exact DownSet.contains_of_mem_of_ple hJ
      (le_of_ple_of_le hple hleJ)

theorem length_of_mem_candidates {D : DownSet} {g : Graph} {K : ℕ}
    {s : Ideal} (h : s ∈ DownSet.safe_pre_image_candidates D g K) :
    s.length = g.dim := by
  unfold DownSet.safe_pre_image_candidates at h
  have := length_of_mem_compute_possible_coefs h
  simpa using this

/-- **C1 (amended).**  Soundness of `safe_pre_image`: every
configuration of the returned downset loses no token on a dead end and
lands in the downward closure of `D` under every deterministic
resolution of the graph; in particular any `x` with a nonzero count on
a state with no successors is excluded, and the result is empty when
`D` is empty.  (The converse inclusion claimed by C1 fails, see the
counterexample.) -/
theorem c1_safe_pre_image_sound (D : DownSet) (g : Graph) (K : ℕ) (x : Ideal)
    (hD : ∀ I ∈ D, List.length I = g.dim) (hx : List.length x = g.dim) :
    (DownSet.contains (DownSet.safe_pre_image D g K) x = true →
      all_resolutions_land D g x = true) ∧
    ((∃ i, i < g.dim ∧ Ideal.get x i ≠ C0 ∧ g.get_successors i = []) →
      DownSet.contains (DownSet.safe_pre_image D g K) x = false) ∧
    (D = [] → DownSet.safe_pre_image D g K = []) := by
  have main : DownSet.contains (DownSet.safe_pre_image D g K) x = true →
      all_resolutions_land D g x = true := by
    intro h
    unfold DownSet.safe_pre_image at h
    split at h
    · exact absurd h (by simp [DownSet.contains])
    · obtain ⟨M, hM, hxM⟩ := DownSet.contains_spec h
      have hM1 := DownSet.mem_minimize hM
      rw [DownSet.mem_foldl_insert] at hM1
      rcases hM1 with habs | hM2
      · simp at habs
      · rw [List.mem_filter] at hM2
        obtain ⟨hMc, hMsafe⟩ := hM2
        exact all_resolutions_land_of_safe hD hx
          (length_of_mem_candidates hMc) hMsafe hxM
  refine ⟨main, ?_, ?_⟩
  · rintro ⟨i, hi, hxi, hsucc⟩
    by_contra hcon
    rw [Bool.not_eq_false] at hcon
    have hland := main hcon
    unfold all_resolutions_land at hland
    rw [Bool.and_eq_true, List.all_eq_true] at hland
    have h2 := hland.1 i (List.mem_range.2 hi)
    rw [hsucc] at h2
    simp [hxi] at h2
  · intro hD0
    subst hD0
    unfold DownSet.safe_pre_image
    rw [if_pos]
    simp [DownSet.is_empty]

/-- Witness for C1 at the repository's own `pre_image2` test data:
`D = ↓{(0,0,ω),(0,ω,0)}`, edges `{(0,1),(0,2)}`, `K = 3`, where
`x = (1,0,0)` is in the computed safe pre-image. -/
theorem c1_safe_pre_image_sound_witness :
    ((∀ I ∈ ([[C0, C0, OMEGA], [C0, OMEGA, C0]] : DownSet),
        List.length I = (Graph.mk 3 [(0, 1), (0, 2)]).dim) ∧
      List.length ([Coef.value 1, C0, C0] : Ideal)
        = (Graph.mk 3 [(0, 1), (0, 2)]).dim ∧
      DownSet.contains
        (DownSet.safe_pre_image [[C0, C0, OMEGA], [C0, OMEGA, C0]]
          (Graph.mk 3 [(0, 1), (0, 2)]) 3) [Coef.value 1, C0, C0] = true) ∧
    ((DownSet.contains
        (DownSet.safe_pre_image [[C0, C0, OMEGA], [C0, OMEGA, C0]]
          (Graph.mk 3 [(0, 1), (0, 2)]) 3) [Coef.value 1, C0, C0] = true →
      all_resolutions_land [[C0, C0, OMEGA], [C0, OMEGA, C0]]
        (Graph.mk 3 [(0, 1), (0, 2)]) [Coef.value 1, C0, C0] = true) ∧
    ((∃ i, i < (Graph.mk 3 [(0, 1), (0, 2)]).dim ∧
        Ideal.get [Coef.value 1, C0, C0] i ≠ C0 ∧
        (Graph.mk 3 [(0, 1), (0, 2)]).get_successors i = []) →
      DownSet.contains
        (DownSet.safe_pre_image [[C0, C0, OMEGA], [C0, OMEGA, C0]]
          (Graph.mk 3 [(0, 1), (0, 2)]) 3) [Coef.value 1, C0, C0] = false) ∧
    (([[C0, C0, OMEGA], [C0, OMEGA, C0]] : DownSet) = [] →
      DownSet.safe_pre_image [[C0, C0, OMEGA], [C0, OMEGA, C0]]
        (Graph.mk 3 [(0, 1), (0, 2)]) 3 = [])) :=
  ⟨⟨by decide, by decide, by decide⟩,
    c1_safe_pre_image_sound [[C0, C0, OMEGA], [C0, OMEGA, C0]]
      (Graph.mk 3 [(0, 1), (0, 2)]) 3 [Coef.value 1, C0, C0]
      (by decide) (by decide)⟩

/-- **C1 (counterexample).**  The claimed converse fails: with
`D = ↓{(2)}`, the one-state graph with a self-loop and bound `K = 1`,
every deterministic resolution from `x = (2)` lands in `↓D`, yet the
downset returned by `safe_pre_image` does not contain `x` (the
candidate enumeration caps finite entries at `K` and the safety check
rounds up). -/
theorem c1_completeness_fails :
    all_resolutions_land [[Coef.value 2]] (Graph.mk 1 [(0, 0)])
      [Coef.value 2] = true ∧
    DownSet.contains
      (DownSet.safe_pre_image [[Coef.value 2]] (Graph.mk 1 [(0, 0)]) 1)
      [Coef.value 2] = false := by decide

/-! ### Claim C7: DownSet equality. -/

theorem contains_of_contained {A B : DownSet} {n : ℕ}
    (hA : ∀ I ∈ A, List.length I = n) (hB : ∀ I ∈ B, List.length I = n)
    (hAB : DownSet.is_contained_in A B = true)
    {x : Ideal} (hx : DownSet.contains A x = true) :
    DownSet.contains B x = true := by
  obtain ⟨I, hI, hxI⟩ := DownSet.contains_spec hx
  unfold DownSet.is_contained_in at hAB
  rw [List.all_eq_true] at hAB
  obtain ⟨J, hJ, hIJ⟩ := DownSet.contains_spec (hAB I hI)
  exact DownSet.contains_of_mem_of_ple hJ
    (Ideal.le_of_le_of_ple hxI (Ideal.ple_of_le (by rw [hA I hI, hB J hJ]) hIJ))

/-- **C7 (confirmed).**  `==` on DownSets is mutual containment, and it
holds exactly when the two downsets have the same downward closure, so
it is independent of the chosen antichain representation. -/
theorem c7_downset_eq_iff_same_closure (n : ℕ) (D1 D2 : DownSet)
    (h1 : ∀ I ∈ D1, List.length I = n) (h2 : ∀ I ∈ D2, List.length I = n) :
    (DownSet.downset_eq D1 D2
      = (DownSet.is_contained_in D1 D2 && DownSet.is_contained_in D2 D1)) ∧
    (DownSet.downset_eq D1 D2 = true ↔
      ∀ x : Ideal, DownSet.contains D1 x = DownSet.contains D2 x) := by
  refine ⟨rfl, ?_⟩
  constructor
  · intro h x
    unfold DownSet.downset_eq at h
    rw [Bool.and_eq_true] at h
    by_cases hc : DownSet.contains D1 x = true
    · rw [hc, contains_of_contained h1 h2 h.1 hc]
    · rw [Bool.not_eq_true] at hc
      rw [hc]
      symm
      rw [Bool.eq_false_iff]
      intro hc2
      have := contains_of_contained h2 h1 h.2 hc2
      simp [this] at hc
  · intro h
    unfold DownSet.downset_eq
    rw [Bool.and_eq_true]
    constructor <;>
      · unfold DownSet.is_contained_in
        rw [List.all_eq_true]
        intro I hI
        first
          | rw [← h I]
          | rw [h I]
        exact DownSet.contains_of_mem_of_ple hI (Ideal.le_refl_ideal I)

/-- Witness for C7 on two different antichain representations of the
same downward-closed set. -/
theorem c7_downset_eq_iff_same_closure_witness :
    ((∀ I ∈ ([[Coef.value 2, OMEGA]] : DownSet), List.length I = 2) ∧
      (∀ I ∈ ([[Coef.value 2, OMEGA], [Coef.value 1, OMEGA]] : DownSet),
        List.length I = 2) ∧
      DownSet.downset_eq [[Coef.value 2, OMEGA]]
        [[Coef.value 2, OMEGA], [Coef.value 1, OMEGA]] = true) ∧
    ((DownSet.downset_eq [[Coef.value 2, OMEGA]]
        [[Coef.value 2, OMEGA], [Coef.value 1, OMEGA]]
      = (DownSet.is_contained_in [[Coef.value 2, OMEGA]]
          [[Coef.value 2, OMEGA], [Coef.value 1, OMEGA]] &&
         DownSet.is_contained_in [[Coef.value 2, OMEGA], [Coef.value 1, OMEGA]]
          [[Coef.value 2, OMEGA]])) ∧
    (DownSet.downset_eq [[Coef.value 2, OMEGA]]
        [[Coef.value 2, OMEGA], [Coef.value 1, OMEGA]] = true ↔
      ∀ x : Ideal, DownSet.contains [[Coef.value 2, OMEGA]] x
        = DownSet.contains [[Coef.value 2, OMEGA], [Coef.value 1, OMEGA]] x)) :=
  ⟨⟨by decide, by decide, by decide⟩,
    c7_downset_eq_iff_same_closure 2 [[Coef.value 2, OMEGA]]
      [[Coef.value 2, OMEGA], [Coef.value 1, OMEGA]] (by decide) (by decide)⟩

/-! ### Claim C4: the antichain invariant under public mutations. -/

/-- **C4 (counterexample).**  `insert` is not a no-op on a strictly
covered ideal: inserting `(0,0)` into `{(1,1)}` changes the
representation and leaves two comparable members. -/
theorem c4_insert_covered_not_noop :
    DownSet.contains [[Coef.value 1, Coef.value 1]] [C0, C0] = true ∧
    DownSet.insert [[Coef.value 1, Coef.value 1]] [C0, C0]
      = [[C0, C0], [Coef.value 1, Coef.value 1]] ∧
    (∃ x ∈ DownSet.insert [[Coef.value 1, Coef.value 1]] [C0, C0],
      ∃ y ∈ DownSet.insert [[Coef.value 1, Coef.value 1]] [C0, C0],
        Ideal.blt x y = true) := by decide

/-- **C4 (amended).**  The antichain property holds after `minimize`
(no two members comparable), `minimize` preserves the downward closure,
and `insert(I)` is a no-op exactly when `I` is already a representative
(exact membership, not coverage). -/
theorem c4_minimize_antichain_insert_exact (D : DownSet) (I : Ideal) (n : ℕ)
    (hD : ∀ J ∈ D, List.length J = n) :
    (∀ x ∈ DownSet.minimize D, ∀ y ∈ DownSet.minimize D,
      Ideal.blt x y = false) ∧
    (∀ x : Ideal, DownSet.contains (DownSet.minimize D) x
      = DownSet.contains D x) ∧
    (DownSet.insert D I = D ↔ I ∈ D) := by
  refine ⟨DownSet.minimize_antichain D, DownSet.contains_minimize D hD, ?_⟩
  constructor
  · intro h
    by_contra hmem
    unfold DownSet.insert at h
    rw [if_neg hmem] at h
    have : (I :: D).length = D.length := by rw [h]
    simp at this
  · intro hmem
    unfold DownSet.insert
    rw [if_pos hmem]

/-- Witness for C4 (amended) on a two-element downset with comparable
members. -/
theorem c4_minimize_antichain_insert_exact_witness :
    (∀ J ∈ ([[Coef.value 1, C0], [Coef.value 2, C0]] : DownSet),
      List.length J = 2) ∧
    ((∀ x ∈ DownSet.minimize [[Coef.value 1, C0], [Coef.value 2, C0]],
      ∀ y ∈ DownSet.minimize [[Coef.value 1, C0], [Coef.value 2, C0]],
        Ideal.blt x y = false) ∧
    (∀ x : Ideal, DownSet.contains
        (DownSet.minimize [[Coef.value 1, C0], [Coef.value 2, C0]]) x
      = DownSet.contains [[Coef.value 1, C0], [Coef.value 2, C0]] x) ∧
    (DownSet.insert [[Coef.value 1, C0], [Coef.value 2, C0]] [C0, C0]
        = [[Coef.value 1, C0], [Coef.value 2, C0]] ↔
      ([C0, C0] : Ideal) ∈ ([[Coef.value 1, C0], [Coef.value 2, C0]] : DownSet))) :=
  ⟨by decide,
    c4_minimize_antichain_insert_exact [[Coef.value 1, C0], [Coef.value 2, C0]]
      [C0, C0] 2 (by decide)⟩

/-! ### Claim C9: the `u8` coefficient representation
(`pub type coef = u8` in `src/coef.rs`). -/

/-- Wrap-around of the `u8` representation (release-mode Rust `+`). -/
def wrap8 (x : ℕ) : ℕ := x % 256

/-- The accumulator loop of `impl Sum for Coef` on the actual `u8`
representation: `sum + v` wraps at `256`. -/
def Coef.sum_u8_go : ℕ → List Coef → Coef
  | acc, [] => Coef.value acc
  | _, Coef.omega :: _ => Coef.omega
  | acc, Coef.value v :: rest => Coef.sum_u8_go (wrap8 (acc + v)) rest

/-- `impl Sum for Coef` over the `u8` representation. -/
def Coef.sum_u8 (l : List Coef) : Coef := Coef.sum_u8_go 0 l

/-- Total of the finite operands of a coefficient list. -/
def finite_total (l : List Coef) : ℕ :=
  (l.map fun c =>
    match c with
    | Coef.value v => v
    | Coef.omega => 0).sum

theorem sum_u8_go_eq_sum_go (l : List Coef) :
    ∀ acc, acc + finite_total l ≤ 255 →
      Coef.sum_u8_go acc l = Coef.sum_go acc l := by
  induction l with
  | nil => intro acc _; rfl
  | cons c l ih =>
    intro acc hacc
    match c with
    | Coef.omega => rfl
    | Coef.value v =>
      unfold Coef.sum_u8_go Coef.sum_go
      have hfin : finite_total (Coef.value v :: l) = v + finite_total l := by
        simp [finite_total]
      rw [hfin] at hacc
      have hwrap : wrap8 (acc + v) = acc + v := by
        unfold wrap8
        omega
      rw [hwrap]
      exact ih (acc + v) (by omega)

/-- **C9 (counterexample).**  Three operands of value `127` (allowed by
the claim for `n = 2`, since `3 ≤ n² = 4`) wrap around the `u8`
accumulator: the machine sum is `125` while the true sum `381` is not
representable in `u8`. -/
theorem c9_three_127_overflow :
    ([Coef.value 127, Coef.value 127, Coef.value 127] : List Coef).length
        ≤ 2 * 2 ∧
    (∀ c ∈ ([Coef.value 127, Coef.value 127, Coef.value 127] : List Coef),
      ∃ v, v ≤ 127 ∧ c = Coef.value v) ∧
    Coef.sum_u8 [Coef.value 127, Coef.value 127, Coef.value 127]
      = Coef.value 125 ∧
    Coef.sum [Coef.value 127, Coef.value 127, Coef.value 127]
      = Coef.value 381 ∧
    ¬ 381 < 256 := by
  refine ⟨by decide, ?_, by decide, by decide, by decide⟩
  intro c hc
  simp at hc
  exact ⟨127, by omega, hc⟩

/-- **C9 (amended).**  A single addition of two operands at most `127`
never overflows the `u8` representation, and the iterator sum equals
the exact (unbounded) sum whenever the total of the finite operands is
at most `255 = u8::MAX`. -/
theorem c9_sum_exact_when_bounded (l : List Coef)
    (h : finite_total l ≤ 255) :
    Coef.sum_u8 l = Coef.sum l ∧
    (∀ x y : ℕ, x ≤ 127 → y ≤ 127 → wrap8 (x + y) = x + y) := by
  constructor
  · exact sum_u8_go_eq_sum_go l 0 (by omega)
  · intro x y hx hy
    unfold wrap8
    omega

/-- Witness for C9 (amended). -/
theorem c9_sum_exact_when_bounded_witness :
    finite_total [Coef.value 127, Coef.value 127] ≤ 255 ∧
    (Coef.sum_u8 [Coef.value 127, Coef.value 127]
        = Coef.sum [Coef.value 127, Coef.value 127] ∧
      (∀ x y : ℕ, x ≤ 127 → y ≤ 127 → wrap8 (x + y) = x + y)) :=
  ⟨by decide, c9_sum_exact_when_bounded [Coef.value 127, Coef.value 127]
    (by decide)⟩

/-! ### Flow matrices (`src/flow.rs`). -/

/-- A flow: an `nb_rows × nb_cols` matrix of coefficients stored in a
row-major entry list. -/
structure Flow where
  nb_rows : ℕ
  nb_cols : ℕ
  entries : List Coef
deriving DecidableEq, Repr

namespace Flow

/-- `Flow::get`: `entries[i * nb_cols + j]`. -/
def get (f : Flow) (i j : ℕ) : Coef := f.entries.getD (i * f.nb_cols + j) C0

/-- `Flow::set`. -/
def set (f : Flow) (i j : ℕ) (c : Coef) : Flow :=
  { f with entries := f.entries.set (i * f.nb_cols + j) c }

/-- `Flow::is_1`. -/
def is_1 (f : Flow) (i j : ℕ) : Bool := f.get i j == Coef.value 1

/-- `Flow::is_omega`. -/
def is_omega (f : Flow) (i j : ℕ) : Bool := f.get i j == Coef.omega

/-- The inner `for _l in 0..dim` loop of `Flow::product`: max of the
minima, breaking to ω when a doubly-ω intermediate is met. -/
def product_entry_go (f g : Flow) (dim i j : ℕ) : List ℕ → ℕ → Coef
  | [], acc => Coef.value acc
  | l :: ls, acc =>
    match Coef.cmin (f.entries.getD (i * dim + l) C0)
        (g.entries.getD (l * dim + j) C0) with
    | Coef.omega => Coef.omega
    | Coef.value x => product_entry_go f g dim i j ls (max acc x)

/-- `Flow::product`: the (max, min) matrix product with ω dominance
(square matrices, `dim = nb_rows`). -/
def product (f g : Flow) : Flow :=
  let dim := f.nb_rows
  { nb_rows := dim, nb_cols := dim,
    entries := (List.range (dim * dim)).map fun k =>
      product_entry_go f g dim (k / dim) (k % dim) (List.range dim) 0 }

/-- `Flow::is_idempotent`. -/
def is_idempotent (f : Flow) : Bool := product f f == f

/-- `Flow::idempotent`: repeated squaring until a fixpoint; the source
loop carries no bound, so fuel makes it structural (an idempotent input
is returned unchanged for every fuel). -/
def idempotent_fuel : ℕ → Flow → Flow
  | 0, f => f
  | fuel + 1, f =>
    let sq := product f f
    if f = sq then f else idempotent_fuel fuel sq

/-- `Flow::get_omega_entries`: ω exactly where some intermediate is
doubly ω (the "deterministic product" used for `K ≤ 1` omega parts). -/
def get_omega_entries (left right : Flow) : Flow :=
  let dim := left.nb_rows
  { nb_rows := dim, nb_cols := dim,
    entries := (List.range (dim * dim)).map fun k =>
      if (List.range dim).any fun l =>
          left.get (k / dim) l == Coef.omega &&
          right.get l (k % dim) == Coef.omega
      then Coef.omega else C0 }

/-- The write set of `Flow::iteration`'s nested loops: positions
`(s, t)` such that some `s0, t0` satisfy `is_1 (s0, t0)`,
`is_omega (s, s0)` and `is_omega (t0, t)`, in loop order. -/
def iteration_triggers (f : Flow) : List (ℕ × ℕ) :=
  let dim := f.nb_rows
  (List.range dim).flatMap fun s0 =>
    (List.range dim).flatMap fun t0 =>
      if f.is_1 s0 t0 then
        (List.range dim).flatMap fun s =>
          if f.is_omega s s0 then
            (List.range dim).filterMap fun t =>
              if f.is_omega t0 t then some (s, t) else none
          else []
      else []

/-- `Flow::iteration`: idempotent closure, then ω at every position
bridged by a `1`-entry between doubly-ω ends. -/
def iteration (fuel : ℕ) (f : Flow) : Flow :=
  (iteration_triggers f).foldl (fun r p => r.set p.1 p.2 Coef.omega)
    (idempotent_fuel fuel f)

/-- `Flow::pre_image`: componentwise sum of the target columns. -/
def pre_image (f : Flow) (target : List ℕ) : Ideal :=
  (List.range f.nb_rows).map fun i =>
    Coef.sum (target.map fun j => f.get i j)

/-- `Flow::edges_to`. -/
def edges_to (f : Flow) (j : ℕ) : List (ℕ × Coef) :=
  (List.range f.nb_rows).filterMap fun i =>
    match f.get i j with
    | Coef.value 0 => none
    | c => some (i, c)

/-- `Flow::edges_from`. -/
def edges_from (f : Flow) (i : ℕ) : List (ℕ × Coef) :=
  (List.range f.nb_cols).filterMap fun j =>
    match f.get i j with
    | Coef.value 0 => none
    | c => some (j, c)

/-- `Flow::get_lines`: the possible rows for one source state. -/
def get_lines (out : List ℕ) (coe : Coef) (dim : ℕ) : List (List Coef) :=
  match coe with
  | Coef.value 0 => [List.replicate dim C0]
  | Coef.omega =>
    [(List.range dim).map fun i => if i ∈ out then OMEGA else C0]
  | Coef.value x =>
    (get_partitions x out.length).map fun p =>
      (out.zip p).foldl (fun result q => result.set q.1 (Coef.value q.2))
        (List.replicate dim C0)

/-- `Flow::get_lines_vec`. -/
def get_lines_vec (domain : Ideal) (edges : Graph) : List (List (List Coef)) :=
  let dim := domain.length
  (List.range domain.length).map fun i =>
    get_lines (edges.get_successors i) (Ideal.get domain i) dim

/-- `Flow::from_domain_and_edges`: all flows compatible with the domain
ideal and the graph (the source panics when an edge index exceeds the
dimension; such inputs are not used). -/
def from_domain_and_edges (domain : Ideal) (edges : Graph) : List Flow :=
  let dim := domain.length
  (multi_cartesian_product (get_lines_vec domain edges)).map fun x =>
    { nb_rows := dim, nb_cols := dim, entries := x.flatten }

/-- `impl PartialOrd for Flow` (the source compares the first
`nb_rows * nb_rows` entries). -/
def fle (f g : Flow) : Bool :=
  (List.range (f.nb_rows * f.nb_rows)).all fun i =>
    Coef.le (f.entries.getD i C0) (g.entries.getD i C0)

/-- Strict flow comparison, `partial_cmp == Less`. -/
def flt (f g : Flow) : Bool := fle f g && !(fle g f)

@[simp] theorem set_nb_rows (f : Flow) (i j : ℕ) (c : Coef) :
    (f.set i j c).nb_rows = f.nb_rows := rfl

@[simp] theorem set_nb_cols (f : Flow) (i j : ℕ) (c : Coef) :
    (f.set i j c).nb_cols = f.nb_cols := rfl

@[simp] theorem set_entries_length (f : Flow) (i j : ℕ) (c : Coef) :
    (f.set i j c).entries.length = f.entries.length := by
  simp [Flow.set]

theorem flat_index_inj {C a b i j : ℕ} (hb : b < C) (hj : j < C)
    (h : a * C + b = i * C + j) : a = i ∧ b = j := by
  have hC : 0 < C := by omega
  have h1 : (a * C + b) / C = a := by
    rw [Nat.mul_comm a C, Nat.mul_add_div hC, Nat.div_eq_of_lt hb]
    omega
  have h2 : (i * C + j) / C = i := by
    rw [Nat.mul_comm i C, Nat.mul_add_div hC, Nat.div_eq_of_lt hj]
    omega
  have h3 : (a * C + b) % C = b := by
    rw [Nat.mul_comm a C, Nat.mul_add_mod, Nat.mod_eq_of_lt hb]
  have h4 : (i * C + j) % C = j := by
    rw [Nat.mul_comm i C, Nat.mul_add_mod, Nat.mod_eq_of_lt hj]
  constructor
  · rw [← h1, ← h2, h]
  · rw [← h3, ← h4, h]

theorem get_set_self (f : Flow) (a b : ℕ) (c : Coef)
    (h : a * f.nb_cols + b < f.entries.length) :
    (f.set a b c).get a b = c := by
  unfold Flow.get Flow.set
  simp only
  rw [List.getD_eq_getElem _ _ (by simpa using h)]
  rw [List.getElem_set_eq (by simpa using h)]

theorem get_set_other (f : Flow) (a b i j : ℕ) (c : Coef)
    (hb : b < f.nb_cols) (hj : j < f.nb_cols) (hne : ¬(a = i ∧ b = j)) :
    (f.set a b c).get i j = f.get i j := by
  unfold Flow.get Flow.set
  simp only
  have hidx : a * f.nb_cols + b ≠ i * f.nb_cols + j := by
    intro hidx
    exact hne (flat_index_inj hb hj hidx)
  by_cases hin : i * f.nb_cols + j < f.entries.length
  · rw [List.getD_eq_getElem _ _ (by simpa using hin),
      List.getD_eq_getElem _ _ hin]
    rw [List.getElem_set_ne (by omega)]
  · rw [List.getD_eq_default _ _ (by simpa using hin),
      List.getD_eq_default _ _ (by simpa using hin)]

theorem get_foldl_set_omega (ps : List (ℕ × ℕ)) (r : Flow) (dim : ℕ)
    (hrows : r.nb_rows = dim) (hcols : r.nb_cols = dim)
    (hlen : r.entries.length = dim * dim)
    (hps : ∀ p ∈ ps, p.1 < dim ∧ p.2 < dim)
    (i j : ℕ) (hi : i < dim) (hj : j < dim) :
    (ps.foldl (fun r p => Flow.set r p.1 p.2 Coef.omega) r).get i j
      = if (i, j) ∈ ps then Coef.omega else r.get i j := by
  induction ps generalizing r with
  | nil => simp
  | cons p ps ih =>
    simp only [List.foldl_cons]
    have hp := hps p (List.mem_cons_self p ps)
    rw [ih (r.set p.1 p.2 Coef.omega) (by simpa using hrows)
      (by simpa using hcols) (by simpa using hlen)
      (fun q hq => hps q (List.mem_cons_of_mem p hq))]
    by_cases hmem : (i, j) ∈ ps
    · rw [if_pos hmem, if_pos (List.mem_cons_of_mem p hmem)]
    · rw [if_neg hmem]
      by_cases hpij : p = (i, j)
      · subst hpij
        rw [if_pos (List.mem_cons_self _ _)]
        exact get_set_self r i j Coef.omega
          (by rw [hlen, hcols]; calc i * dim + j < i * dim + dim := by omega
                _ = (i + 1) * dim := by ring
                _ ≤ dim * dim := Nat.mul_le_mul_right dim (by omega))
      · rw [if_neg (by
          intro hc
          rcases List.mem_cons.1 hc with hc | hc
          · exact hpij (by rw [hc])
          · exact hmem hc)]
        refine get_set_other r p.1 p.2 i j Coef.omega
          (by rw [hcols]; exact hp.2) (by rw [hcols]; exact hj) ?_
        intro ⟨h1, h2⟩
        exact hpij (by rw [← h1, ← h2])

theorem idempotent_fuel_of_idempotent {f : Flow}
    (hid : Flow.product f f = f) (fuel : ℕ) :
    Flow.idempotent_fuel fuel f = f := by
  cases fuel with
  | zero => rfl
  | succ fuel =>
    unfold Flow.idempotent_fuel
    rw [hid]
    simp

theorem mem_iteration_triggers {f : Flow} {s t : ℕ} :
    (s, t) ∈ Flow.iteration_triggers f ↔
      ∃ s0, s0 < f.nb_rows ∧ ∃ t0, t0 < f.nb_rows ∧
        f.is_1 s0 t0 = true ∧ s < f.nb_rows ∧ f.is_omega s s0 = true ∧
        t < f.nb_rows ∧ f.is_omega t0 t = true := by
  unfold Flow.iteration_triggers
  simp only
  constructor
  · intro h
    rw [List.mem_flatMap] at h
    obtain ⟨s0, hs0, h⟩ := h
    rw [List.mem_flatMap] at h
    obtain ⟨t0, ht0, h⟩ := h
    rw [List.mem_range] at hs0 ht0
    by_cases h1 : f.is_1 s0 t0 = true
    case neg =>
      rw [if_neg h1] at h
      simp at h
    rw [if_pos h1] at h
    rw [List.mem_flatMap] at h
    obtain ⟨s', hs', h⟩ := h
    rw [List.mem_range] at hs'
    by_cases h2 : f.is_omega s' s0 = true
    case neg =>
      rw [if_neg h2] at h
      simp at h
    rw [if_pos h2] at h
    rw [List.mem_filterMap] at h
    obtain ⟨t', ht', heq⟩ := h
    rw [List.mem_range] at ht'
    by_cases h3 : f.is_omega t0 t' = true
    case neg =>
      rw [if_neg h3] at heq
      simp at heq
    rw [if_pos h3] at heq
    have hst : s' = s ∧ t' = t := by
      have := Option.some.inj heq
      exact ⟨congrArg Prod.fst this, congrArg Prod.snd this⟩
    obtain ⟨rfl, rfl⟩ := hst
    exact ⟨s0, hs0, t0, ht0, h1, hs', h2, ht', h3⟩
  · rintro ⟨s0, hs0, t0, ht0, h1, hs, h2, ht, h3⟩
    rw [List.mem_flatMap]
    refine ⟨s0, List.mem_range.2 hs0, ?_⟩
    rw [List.mem_flatMap]
    refine ⟨t0, List.mem_range.2 ht0, ?_⟩
    rw [if_pos h1, List.mem_flatMap]
    refine ⟨s, List.mem_range.2 hs, ?_⟩
    rw [if_pos h2, List.mem_filterMap]
    exact ⟨t, List.mem_range.2 ht, by rw [if_pos h3]⟩

end Flow

/-- **C2 (amended).**  For every idempotent square flow `F`,
`iteration(F)` has entry ω at `(i, j)` exactly when some `s0, t0`
satisfy `F[s0][t0] = 1` (the code's `is_1` tests for the value exactly
`1`, not "finite positive"), `F[i][s0] = ω` and `F[t0][j] = ω`;
otherwise the entry is `F[i][j]`. -/
theorem c2_iteration_idempotent_char (F : Flow) (fuel i j : ℕ)
    (hsq : F.nb_cols = F.nb_rows)
    (hlen : F.entries.length = F.nb_rows * F.nb_rows)
    (hid : Flow.product F F = F)
    (hi : i < F.nb_rows) (hj : j < F.nb_rows) :
    (Flow.iteration fuel F).get i j
      = if ∃ s0, s0 < F.nb_rows ∧ ∃ t0, t0 < F.nb_rows ∧
            F.get s0 t0 = Coef.value 1 ∧ F.get i s0 = Coef.omega ∧
            F.get t0 j = Coef.omega
        then Coef.omega else F.get i j := by
  unfold Flow.iteration
  rw [Flow.idempotent_fuel_of_idempotent hid]
  rw [Flow.get_foldl_set_omega (Flow.iteration_triggers F) F F.nb_rows rfl hsq
    hlen
    (fun p hp => by
      obtain ⟨q1, q2⟩ := p
      have := Flow.mem_iteration_triggers.1 hp
      obtain ⟨s0, _, t0, _, _, hqs, _, hqt, _⟩ := this
      exact ⟨hqs, hqt⟩)
    i j hi hj]
  by_cases hcond : ∃ s0, s0 < F.nb_rows ∧ ∃ t0, t0 < F.nb_rows ∧
      F.get s0 t0 = Coef.value 1 ∧ F.get i s0 = Coef.omega ∧
      F.get t0 j = Coef.omega
  · rw [if_pos hcond, if_pos]
    obtain ⟨s0, hs0, t0, ht0, h1, h2, h3⟩ := hcond
    exact Flow.mem_iteration_triggers.2
      ⟨s0, hs0, t0, ht0, by simp [Flow.is_1, h1], hi,
        by simp [Flow.is_omega, h2], hj, by simp [Flow.is_omega, h3]⟩
  · rw [if_neg hcond, if_neg]
    intro hmem
    obtain ⟨s0, hs0, t0, ht0, h1, _, h2, _, h3⟩ :=
      Flow.mem_iteration_triggers.1 hmem
    refine hcond ⟨s0, hs0, t0, ht0, ?_, ?_, ?_⟩
    · simpa [Flow.is_1] using h1
    · simpa [Flow.is_omega] using h2
    · simpa [Flow.is_omega] using h3

/-- Witness for C2 on the repository's own `iteration_test` flow
`[[ω, 1], [0, ω]]` (idempotent), whose iteration promotes entry
`(0, 1)` to ω. -/
theorem c2_iteration_idempotent_char_witness :
    ((Flow.mk 2 2 [OMEGA, Coef.value 1, C0, OMEGA]).nb_cols
        = (Flow.mk 2 2 [OMEGA, Coef.value 1, C0, OMEGA]).nb_rows ∧
      (Flow.mk 2 2 [OMEGA, Coef.value 1, C0, OMEGA]).entries.length
        = (Flow.mk 2 2 [OMEGA, Coef.value 1, C0, OMEGA]).nb_rows *
          (Flow.mk 2 2 [OMEGA, Coef.value 1, C0, OMEGA]).nb_rows ∧
      Flow.product (Flow.mk 2 2 [OMEGA, Coef.value 1, C0, OMEGA])
          (Flow.mk 2 2 [OMEGA, Coef.value 1, C0, OMEGA])
        = Flow.mk 2 2 [OMEGA, Coef.value 1, C0, OMEGA] ∧
      (Flow.iteration 5 (Flow.mk 2 2 [OMEGA, Coef.value 1, C0, OMEGA])).get 0 1
        = Coef.omega) ∧
    ((Flow.iteration 5 (Flow.mk 2 2 [OMEGA, Coef.value 1, C0, OMEGA])).get 0 1
      = if ∃ s0, s0 < (Flow.mk 2 2 [OMEGA, Coef.value 1, C0, OMEGA]).nb_rows ∧
            ∃ t0, t0 < (Flow.mk 2 2 [OMEGA, Coef.value 1, C0, OMEGA]).nb_rows ∧
              (Flow.mk 2 2 [OMEGA, Coef.value 1, C0, OMEGA]).get s0 t0
                  = Coef.value 1 ∧
              (Flow.mk 2 2 [OMEGA, Coef.value 1, C0, OMEGA]).get 0 s0
                  = Coef.omega ∧
              (Flow.mk 2 2 [OMEGA, Coef.value 1, C0, OMEGA]).get t0 1
                  = Coef.omega
        then Coef.omega
        else (Flow.mk 2 2 [OMEGA, Coef.value 1, C0, OMEGA]).get 0 1) :=
  ⟨⟨by decide, by decide, by decide, by decide⟩,
    c2_iteration_idempotent_char (Flow.mk 2 2 [OMEGA, Coef.value 1, C0, OMEGA])
      5 0 1 (by decide) (by decide) (by decide) (by decide) (by decide)⟩

/-- **C2 (counterexample).**  The flow `[[ω, 2], [0, ω]]` is
idempotent, `F[0][1] = 2` is finite and at least `1`, `F[0][0] = ω` and
`F[1][1] = ω`, so the claim requires `iteration(F)[0][1] = ω`; the code
(`is_1` tests for the value exactly `1`) leaves the entry at `2`. -/
theorem c2_iteration_geq_one_fails :
    Flow.product (Flow.mk 2 2 [OMEGA, Coef.value 2, C0, OMEGA])
        (Flow.mk 2 2 [OMEGA, Coef.value 2, C0, OMEGA])
      = Flow.mk 2 2 [OMEGA, Coef.value 2, C0, OMEGA] ∧
    (Flow.mk 2 2 [OMEGA, Coef.value 2, C0, OMEGA]).get 0 1 = Coef.value 2 ∧
    (1 ≤ 2 ∧ (Flow.mk 2 2 [OMEGA, Coef.value 2, C0, OMEGA]).get 0 0
        = Coef.omega ∧
      (Flow.mk 2 2 [OMEGA, Coef.value 2, C0, OMEGA]).get 1 1 = Coef.omega) ∧
    ∀ fuel : ℕ,
      (Flow.iteration fuel (Flow.mk 2 2 [OMEGA, Coef.value 2, C0, OMEGA])).get 0 1
        = Coef.value 2 := by
  refine ⟨by decide, by decide, ⟨by decide, by decide, by decide⟩, ?_⟩
  intro fuel
  unfold Flow.iteration
  rw [Flow.idempotent_fuel_of_idempotent (by decide) fuel]
  decide

/-! ### The finite-aware product of the flow semigroup
(`src/semigroup.rs`). -/

/-- `semigroup::get_transports_rec`: enumerate the transports over the
stray edges, respecting the remaining left/right budgets; the last edge
absorbs the maximal remaining amount.  `gas` carries the source's
termination measure (`edges.len() - current_edge`) structurally. -/
def sg_get_transports_go :
    ℕ → Flow → List (ℕ × ℕ) → ℕ → List ℕ → List ℕ → List Flow
  | gas, current_flow, edges, current_edge, nb_strays_left, nb_strays_right =>
    let e := edges.getD current_edge (0, 0)
    let strays_left := nb_strays_left.getD e.1 0
    let strays_right := nb_strays_right.getD e.2 0
    let nb_max := min strays_left strays_right
    if edges.length ≤ current_edge + 1 then
      [current_flow.set e.1 e.2 (Coef.value nb_max)]
    else
      match gas with
      | 0 => []
      | gas + 1 =>
        (List.range (nb_max + 1)).flatMap fun nb_here =>
          sg_get_transports_go gas
            (current_flow.set e.1 e.2 (Coef.value nb_here)) edges
            (current_edge + 1) (nb_strays_left.set e.1 (strays_left - nb_here))
            (nb_strays_right.set e.2 (strays_right - nb_here))

/-- `semigroup::get_transports`: all ways to transport the finite
budgets `left_edges` against `right_edges`, ω treated as the numeric
bound for budgeting; the ω-ω positions are fixed to ω (the source's
`omega_flow`, including its `k / nb_rows` row computation). -/
def sg_get_transports (left_edges right_edges : List Coef)
    (maximal_finite_coordinate : ℕ) : List Flow :=
  let nb_rows := left_edges.length
  let nb_cols := right_edges.length
  let omega_left := (left_edges.enum).filterMap fun p =>
    if p.2 == Coef.omega then some p.1 else none
  let omega_right := (right_edges.enum).filterMap fun p =>
    if p.2 == Coef.omega then some p.1 else none
  let omega_flow : Flow :=
    { nb_rows := nb_rows, nb_cols := nb_cols,
      entries := (List.range (nb_rows * nb_cols)).map fun k =>
        if k / nb_rows ∈ omega_left ∧ k % nb_cols ∈ omega_right then
          Coef.omega
        else Coef.value 0 }
  let nb_strays_left := left_edges.map fun x =>
    match x with
    | Coef.value y => y
    | Coef.omega => maximal_finite_coordinate
  let nb_strays_right := right_edges.map fun x =>
    match x with
    | Coef.value y => y
    | Coef.omega => maximal_finite_coordinate
  let stray_edges := (left_edges.enum).flatMap fun p =>
    (right_edges.enum).filterMap fun q =>
      match p.2, q.2 with
      | Coef.omega, Coef.omega => none
      | Coef.value 0, _ => none
      | _, Coef.value 0 => none
      | _, _ => some (p.1, q.1)
  if stray_edges.isEmpty then [omega_flow]
  else
    sg_get_transports_go stray_edges.length omega_flow stray_edges 0
      nb_strays_left nb_strays_right

/-- One `(subi, reali) × (subj, realj)` accumulation step of
`FlowSemigroup::get_products_rec`: add the transported amount to the
accumulating product and decrement the budgets, skipping the single
addition when the entry would exceed the bound finitely (the source's
`continue`). -/
def products_step (K k : ℕ) (t : Flow) (acc : Flow × Flow × Flow)
    (p : (ℕ × ℕ) × (ℕ × ℕ)) : Flow × Flow × Flow :=
  if Coef.le (Coef.add (acc.2.2.get p.1.2 p.2.2) (t.get p.1.1 p.2.1))
      (Coef.value K) then
    (acc.1.set p.1.2 k (Coef.sub (acc.1.get p.1.2 k) (t.get p.1.1 p.2.1)),
     (acc.2.1.set k p.2.2 (Coef.sub (acc.2.1.get k p.2.2) (t.get p.1.1 p.2.1)),
      acc.2.2.set p.1.2 p.2.2
        (Coef.add (acc.2.2.get p.1.2 p.2.2) (t.get p.1.1 p.2.1))))
  else acc

/-- `FlowSemigroup::get_products_rec` (`gas` carries the source's
`dim - k` measure structurally). -/
def get_products_go : ℕ → ℕ → Flow → Flow → ℕ → ℕ → Flow → List Flow
  | gas, dim, left, right, K, k, current_flow =>
    let left_edges := left.edges_to k
    let right_edges := right.edges_from k
    if left_edges.isEmpty || right_edges.isEmpty then
      if k + 1 < dim then
        match gas with
        | 0 => []
        | gas + 1 => get_products_go gas dim left right K (k + 1) current_flow
      else [current_flow]
    else
      let left_coefs := left_edges.map fun p => p.2
      let right_coefs := right_edges.map fun p => p.2
      let left_indices := left_edges.map fun p => p.1
      let right_indices := right_edges.map fun p => p.1
      let all_indices := (left_indices.enum).flatMap fun si =>
        (right_indices.enum).map fun sj => (si, sj)
      let transports := sg_get_transports left_coefs right_coefs K
      transports.flatMap fun t =>
        let st := all_indices.foldl (products_step K k t) (left, right, current_flow)
        if k + 1 ≥ dim then [st.2.2]
        else
          match gas with
          | 0 => []
          | gas + 1 => get_products_go gas dim st.1 st.2.1 K (k + 1) st.2.2

/-- `FlowSemigroup::get_products`: the non-deterministic finite-aware
product of two flows. -/
def get_products (left right : Flow) (maximal_finite_coordinate : ℕ) :
    List Flow :=
  let dim := left.nb_rows
  get_products_go dim dim left right maximal_finite_coordinate 0
    (Flow.get_omega_entries left right)

/-- Modelled from the spec (claim C3): the same product, but a flow
"in which some entry would exceed `K` while remaining finite" is
"skipped as a whole" — the whole transport branch is abandoned instead
of skipping the single addition. -/
def products_step_spec (K k : ℕ) (t : Flow) (acc : Flow × Flow × Flow)
    (p : (ℕ × ℕ) × (ℕ × ℕ)) : Option (Flow × Flow × Flow) :=
  if Coef.le (Coef.add (acc.2.2.get p.1.2 p.2.2) (t.get p.1.1 p.2.1))
      (Coef.value K) then
    some (acc.1.set p.1.2 k (Coef.sub (acc.1.get p.1.2 k) (t.get p.1.1 p.2.1)),
      (acc.2.1.set k p.2.2 (Coef.sub (acc.2.1.get k p.2.2) (t.get p.1.1 p.2.1)),
       acc.2.2.set p.1.2 p.2.2
         (Coef.add (acc.2.2.get p.1.2 p.2.2) (t.get p.1.1 p.2.1))))
  else none

/-- Modelled from the spec (claim C3): abort-aware fold of
`products_step_spec` over the index pairs. -/
def products_fold_spec (K k : ℕ) (t : Flow) :
    List ((ℕ × ℕ) × (ℕ × ℕ)) → Flow × Flow × Flow →
      Option (Flow × Flow × Flow)
  | [], acc => some acc
  | p :: l, acc =>
    match products_step_spec K k t acc p with
    | none => none
    | some acc => products_fold_spec K k t l acc

/-- Modelled from the spec (claim C3): recursion of the whole-skip
product (fuel-first structural recursion; the top level passes more
fuel than the `dim` rounds can consume). -/
def get_products_spec_go : ℕ → ℕ → Flow → Flow → ℕ → ℕ → Flow → List Flow
  | 0, _, _, _, _, _, _ => []
  | gas + 1, dim, left, right, K, k, current_flow =>
    let left_edges := left.edges_to k
    let right_edges := right.edges_from k
    if left_edges.isEmpty || right_edges.isEmpty then
      if k + 1 < dim then
        get_products_spec_go gas dim left right K (k + 1) current_flow
      else [current_flow]
    else
      let left_coefs := left_edges.map fun p => p.2
      let right_coefs := right_edges.map fun p => p.2
      let left_indices := left_edges.map fun p => p.1
      let right_indices := right_edges.map fun p => p.1
      let all_indices := (left_indices.enum).flatMap fun si =>
        (right_indices.enum).map fun sj => (si, sj)
      let transports := sg_get_transports left_coefs right_coefs K
      transports.flatMap fun t =>
        match products_fold_spec K k t all_indices
          (left, right, current_flow) with
        | none => []
        | some st =>
          if k + 1 ≥ dim then [st.2.2]
          else get_products_spec_go gas dim st.1 st.2.1 K (k + 1) st.2.2

/-- Modelled from the spec (claim C3): top level of the whole-skip
product. -/
def get_products_spec_skip (left right : Flow)
    (maximal_finite_coordinate : ℕ) : List Flow :=
  let dim := left.nb_rows
  get_products_spec_go (dim + 1) dim left right maximal_finite_coordinate 0
    (Flow.get_omega_entries left right)

/-- `c` has ω exactly where the reference flow `o` does, and every
finite entry of `c` is at most `K` (on the `dim × dim` window). -/
def flow_entries_conform (o : Flow) (dim K : ℕ) (c : Flow) : Prop :=
  ∀ i j, i < dim → j < dim →
    ((c.get i j = Coef.omega ↔ o.get i j = Coef.omega) ∧
      ∀ v, c.get i j = Coef.value v → v ≤ K)

theorem mem_enum_snd {α : Type _} {l : List α} {q : ℕ × α}
    (h : q ∈ l.enum) : q.2 ∈ l := by
  obtain ⟨i, a⟩ := q
  rw [List.enum_eq_zip_range] at h
  exact (List.of_mem_zip h).2

theorem mem_edges_to {f : Flow} {j : ℕ} {p : ℕ × Coef}
    (h : p ∈ Flow.edges_to f j) : p.1 < f.nb_rows := by
  unfold Flow.edges_to at h
  rw [List.mem_filterMap] at h
  obtain ⟨i, hi, heq⟩ := h
  rw [List.mem_range] at hi
  split at heq
  · cases heq
  · rw [← Option.some.inj heq]
    exact hi

theorem mem_edges_from {f : Flow} {i : ℕ} {p : ℕ × Coef}
    (h : p ∈ Flow.edges_from f i) : p.1 < f.nb_cols := by
  unfold Flow.edges_from at h
  rw [List.mem_filterMap] at h
  obtain ⟨j, hj, heq⟩ := h
  rw [List.mem_range] at hj
  split at heq
  · cases heq
  · rw [← Option.some.inj heq]
    exact hj

theorem mem_all_indices {left right : Flow} {k : ℕ}
    {p : (ℕ × ℕ) × (ℕ × ℕ)}
    (hp : p ∈ ((left.edges_to k).map fun p => p.1).enum.flatMap fun si =>
      (((right.edges_from k).map fun p => p.1).enum).map fun sj =>
        (si, sj)) :
    p.1.2 < left.nb_rows ∧ p.2.2 < right.nb_cols := by
  rw [List.mem_flatMap] at hp
  obtain ⟨si, hsi, hp⟩ := hp
  rw [List.mem_map] at hp
  obtain ⟨sj, hsj, rfl⟩ := hp
  have h1 : si.2 ∈ (left.edges_to k).map fun p => p.1 := mem_enum_snd hsi
  have h2 : sj.2 ∈ (right.edges_from k).map fun p => p.1 := mem_enum_snd hsj
  rw [List.mem_map] at h1 h2
  obtain ⟨e1, he1, heq1⟩ := h1
  obtain ⟨e2, he2, heq2⟩ := h2
  exact ⟨heq1 ▸ mem_edges_to he1, heq2 ▸ mem_edges_from he2⟩

theorem products_step_fields (K k : ℕ) (t : Flow) (acc : Flow × Flow × Flow)
    (p : (ℕ × ℕ) × (ℕ × ℕ)) :
    (products_step K k t acc p).1.nb_rows = acc.1.nb_rows ∧
    (products_step K k t acc p).2.1.nb_cols = acc.2.1.nb_cols ∧
    (products_step K k t acc p).2.2.nb_rows = acc.2.2.nb_rows ∧
    (products_step K k t acc p).2.2.nb_cols = acc.2.2.nb_cols ∧
    (products_step K k t acc p).2.2.entries.length
      = acc.2.2.entries.length := by
  unfold products_step
  split <;> simp

theorem products_step_conform (o : Flow) (dim K k : ℕ) (t : Flow)
    (acc : Flow × Flow × Flow) (p : (ℕ × ℕ) × (ℕ × ℕ))
    (hp1 : p.1.2 < dim) (hp2 : p.2.2 < dim)
    (hcols : acc.2.2.nb_cols = dim)
    (hlen : acc.2.2.entries.length = dim * dim)
    (hconf : flow_entries_conform o dim K acc.2.2) :
    flow_entries_conform o dim K (products_step K k t acc p).2.2 := by
  unfold products_step
  split
  case isFalse => exact hconf
  case isTrue hle =>
    simp only
    cases hnew : Coef.add (acc.2.2.get p.1.2 p.2.2) (t.get p.1.1 p.2.1) with
    | omega =>
      rw [hnew] at hle
      simp [Coef.le] at hle
    | value v =>
      rw [hnew] at hle
      have hv : v ≤ K := by simpa [Coef.le] using hle
      have hcf : ∃ w, acc.2.2.get p.1.2 p.2.2 = Coef.value w := by
        cases hcf : acc.2.2.get p.1.2 p.2.2 with
        | omega =>
          rw [hcf, Coef.add_eq_omega_left] at hnew
          cases hnew
        | value w => exact ⟨w, rfl⟩
      obtain ⟨w, hw⟩ := hcf
      have honot : ¬ o.get p.1.2 p.2.2 = Coef.omega := by
        intro hcon
        have := ((hconf p.1.2 p.2.2 hp1 hp2).1).2 hcon
        rw [hw] at this
        cases this
      intro i j hi hj
      by_cases hij : i = p.1.2 ∧ j = p.2.2
      · obtain ⟨rfl, rfl⟩ := hij
        rw [Flow.get_set_self _ _ _ _ (by
          rw [hlen, hcols]
          calc p.1.2 * dim + p.2.2 < p.1.2 * dim + dim := by omega
            _ = (p.1.2 + 1) * dim := by ring
            _ ≤ dim * dim := Nat.mul_le_mul_right dim (by omega))]
        refine ⟨⟨fun h => absurd h (by simp), fun h => absurd h honot⟩, ?_⟩
        intro u hu
        rw [← Coef.value.inj hu]
        exact hv
      · rw [Flow.get_set_other _ _ _ _ _ _ (hcols ▸ hp2) (hcols ▸ hj) (by
          intro ⟨h1, h2⟩
          exact hij ⟨h1.symm, h2.symm⟩)]
        exact hconf i j hi hj

theorem products_foldl_conform (o : Flow) (dim K k : ℕ) (t : Flow)
    (l : List ((ℕ × ℕ) × (ℕ × ℕ)))
    (hl : ∀ p ∈ l, p.1.2 < dim ∧ p.2.2 < dim) (acc : Flow × Flow × Flow)
    (hrows : acc.1.nb_rows = dim) (hrcols : acc.2.1.nb_cols = dim)
    (hcrows : acc.2.2.nb_rows = dim) (hcols : acc.2.2.nb_cols = dim)
    (hlen : acc.2.2.entries.length = dim * dim)
    (hconf : flow_entries_conform o dim K acc.2.2) :
    (l.foldl (products_step K k t) acc).1.nb_rows = dim ∧
    (l.foldl (products_step K k t) acc).2.1.nb_cols = dim ∧
    (l.foldl (products_step K k t) acc).2.2.nb_rows = dim ∧
    (l.foldl (products_step K k t) acc).2.2.nb_cols = dim ∧
    (l.foldl (products_step K k t) acc).2.2.entries.length = dim * dim ∧
    flow_entries_conform o dim K (l.foldl (products_step K k t) acc).2.2 := by
  induction l generalizing acc with
  | nil => exact ⟨hrows, hrcols, hcrows, hcols, hlen, hconf⟩
  | cons p l ih =>
    simp only [List.foldl_cons]
    have hp := hl p (List.mem_cons_self p l)
    have hst := products_step_fields K k t acc p
    exact ih (fun q hq => hl q (List.mem_cons_of_mem p hq))
      (products_step K k t acc p)
      (by rw [hst.1, hrows]) (by rw [hst.2.1, hrcols])
      (by rw [hst.2.2.1, hcrows]) (by rw [hst.2.2.2.1, hcols])
      (by rw [hst.2.2.2.2, hlen])
      (products_step_conform o dim K k t acc p hp.1 hp.2 hcols hlen hconf)

theorem mem_get_products_go_conform (dim K : ℕ) (o : Flow) :
    ∀ gas left right k current f,
      left.nb_rows = dim → right.nb_cols = dim →
      current.nb_rows = dim → current.nb_cols = dim →
      current.entries.length = dim * dim →
      flow_entries_conform o dim K current →
      f ∈ get_products_go gas dim left right K k current →
      f.nb_rows = dim ∧ f.nb_cols = dim ∧
        flow_entries_conform o dim K f := by
  intro gas
  induction gas with
  | zero =>
    intro left right k current f hl hr h1 h2 h3 hc hf
    rw [get_products_go.eq_def] at hf
    dsimp only at hf
    split at hf
    · split at hf
      · simp at hf
      · rw [List.mem_singleton] at hf
        subst hf
        exact ⟨h1, h2, hc⟩
    · rw [List.mem_flatMap] at hf
      obtain ⟨t, ht, hf⟩ := hf
      have hst := products_foldl_conform o dim K k t
        (((left.edges_to k).map fun p => p.1).enum.flatMap fun si =>
          (((right.edges_from k).map fun p => p.1).enum).map fun sj =>
            (si, sj))
        (fun p hp => by
          have := mem_all_indices hp
          exact ⟨hl ▸ this.1, hr ▸ this.2⟩)
        (left, right, current) hl hr h1 h2 h3 hc
      split at hf
      · rw [List.mem_singleton] at hf
        subst hf
        exact ⟨hst.2.2.1, hst.2.2.2.1, hst.2.2.2.2.2⟩
      · simp at hf
  | succ gas ih =>
    intro left right k current f hl hr h1 h2 h3 hc hf
    rw [get_products_go.eq_def] at hf
    dsimp only at hf
    split at hf
    · split at hf
      · exact ih left right (k + 1) current f hl hr h1 h2 h3 hc hf
      · rw [List.mem_singleton] at hf
        subst hf
        exact ⟨h1, h2, hc⟩
    · rw [List.mem_flatMap] at hf
      obtain ⟨t, ht, hf⟩ := hf
      have hst := products_foldl_conform o dim K k t
        (((left.edges_to k).map fun p => p.1).enum.flatMap fun si =>
          (((right.edges_from k).map fun p => p.1).enum).map fun sj =>
            (si, sj))
        (fun p hp => by
          have := mem_all_indices hp
          exact ⟨hl ▸ this.1, hr ▸ this.2⟩)
        (left, right, current) hl hr h1 h2 h3 hc
      split at hf
      · rw [List.mem_singleton] at hf
        subst hf
        exact ⟨hst.2.2.1, hst.2.2.2.1, hst.2.2.2.2.2⟩
      · exact ih _ _ (k + 1) _ f hst.1 hst.2.1 hst.2.2.1 hst.2.2.2.1
          hst.2.2.2.2.1 hst.2.2.2.2.2 hf

theorem get_omega_entries_get_cases (L R : Flow) (i j : ℕ)
    (hi : i < L.nb_rows) (hj : j < L.nb_rows) :
    (Flow.get_omega_entries L R).get i j = Coef.omega ∨
      (Flow.get_omega_entries L R).get i j = Coef.value 0 := by
  unfold Flow.get_omega_entries Flow.get
  simp only
  have hidx : i * L.nb_rows + j < L.nb_rows * L.nb_rows := by
    calc i * L.nb_rows + j < i * L.nb_rows + L.nb_rows := by omega
      _ = (i + 1) * L.nb_rows := by ring
      _ ≤ L.nb_rows * L.nb_rows := Nat.mul_le_mul_right _ (by omega)
  rw [List.getD_eq_getElem _ _ (by simpa using hidx)]
  rw [List.getElem_map, List.getElem_range]
  split
  · exact Or.inl rfl
  · exact Or.inr rfl

theorem get_omega_entries_conform (L R : Flow) (K : ℕ) :
    flow_entries_conform (Flow.get_omega_entries L R) L.nb_rows K
      (Flow.get_omega_entries L R) := by
  intro i j hi hj
  refine ⟨Iff.rfl, ?_⟩
  intro v hv
  rcases get_omega_entries_get_cases L R i j hi hj with h | h
  · rw [h] at hv
    cases hv
  · rw [h] at hv
    rw [← Coef.value.inj hv]
    exact Nat.zero_le K

/-- **C3 (amended).**  Every flow returned by the finite-aware product
`get_products(L, R, K)` conforms to the deterministic ω-part of `L · R`:
its entries are ω exactly at the positions where `get_omega_entries`
places ω (so finite excess is never rounded up to ω), and every finite
entry is at most `K`.  The claim's further assertion that an offending
transport is "skipped as a whole" is refuted by
`c3_whole_skip_fails`: only the single excessive addition is skipped
(the source's per-entry `continue`), and the flow built from the
remaining additions is still returned. -/
theorem c3_products_finite_entries_bounded (L R : Flow) (K : ℕ) (f : Flow)
    (hR : R.nb_cols = L.nb_rows) (hf : f ∈ get_products L R K) :
    f.nb_rows = L.nb_rows ∧ f.nb_cols = L.nb_rows ∧
      flow_entries_conform (Flow.get_omega_entries L R) L.nb_rows K f := by
  refine mem_get_products_go_conform L.nb_rows K
    (Flow.get_omega_entries L R) L.nb_rows L R 0
    (Flow.get_omega_entries L R) f rfl hR rfl rfl ?_
    (get_omega_entries_conform L R K) hf
  simp [Flow.get_omega_entries]

/-- Witness for C3: the sound product of the counterexample pair
conforms to the ω-part with bound `K = 1`. -/
theorem c3_products_finite_entries_bounded_witness :
    (Flow.mk 2 2 [Coef.value 1, Coef.value 0, Coef.value 0,
        Coef.value 0]).nb_rows = 2 ∧
    (Flow.mk 2 2 [Coef.value 1, Coef.value 0, Coef.value 0,
        Coef.value 0]).nb_cols = 2 ∧
    flow_entries_conform
      (Flow.get_omega_entries
        (Flow.mk 2 2 [Coef.value 1, Coef.value 1, Coef.value 0,
          Coef.value 0])
        (Flow.mk 2 2 [Coef.value 1, Coef.value 0, Coef.value 1,
          Coef.value 0])) 2 1
      (Flow.mk 2 2 [Coef.value 1, Coef.value 0, Coef.value 0,
        Coef.value 0]) :=
  c3_products_finite_entries_bounded
    (Flow.mk 2 2 [Coef.value 1, Coef.value 1, Coef.value 0, Coef.value 0])
    (Flow.mk 2 2 [Coef.value 1, Coef.value 0, Coef.value 1, Coef.value 0])
    1
    (Flow.mk 2 2 [Coef.value 1, Coef.value 0, Coef.value 0, Coef.value 0])
    rfl (by decide)

/-- **C3 (counterexample to the whole-skip clause).**  With
`L = [[1,1],[0,0]]`, `R = [[1,0],[1,0]]` and `K = 1`, the transport at
index `k = 1` would accumulate entry `(0,0)` to the finite value `2 > K`;
the claimed whole-flow skip would return no product at all, but the code
skips only that single addition and still returns the flow
`[[1,0],[0,0]]` built from the `k = 0` round. -/
theorem c3_whole_skip_fails :
    get_products
        (Flow.mk 2 2 [Coef.value 1, Coef.value 1, Coef.value 0,
          Coef.value 0])
        (Flow.mk 2 2 [Coef.value 1, Coef.value 0, Coef.value 1,
          Coef.value 0]) 1 =
      [Flow.mk 2 2 [Coef.value 1, Coef.value 0, Coef.value 0,
        Coef.value 0]] ∧
    get_products_spec_skip
        (Flow.mk 2 2 [Coef.value 1, Coef.value 1, Coef.value 0,
          Coef.value 0])
        (Flow.mk 2 2 [Coef.value 1, Coef.value 0, Coef.value 1,
          Coef.value 0]) 1 = [] := by
  exact ⟨by decide, by decide⟩

/-! ### The flow semigroup closure (`src/semigroup.rs`). -/

namespace DownSet

/-- `DownSet::from_vec` (a `HashSet` collect: deduplicating). -/
def from_vec (w : List Ideal) : DownSet := w.eraseDups

end DownSet

/-- `FlowSemigroup` stores a `HashSet<Flow>`, modelled as a list. -/
abbrev FlowSemigroup := List Flow

namespace FlowSemigroup

/-- `FlowSemigroup::is_covered`. -/
def is_covered (flow : Flow) (others : List Flow) : Bool :=
  others.any fun other => Flow.fle flow other

/-- `FlowSemigroup::minimize`: drop every flow strictly below
another. -/
def minimize (flows : List Flow) : List Flow :=
  flows.filter fun flow => !(flows.any fun other => Flow.flt flow other)

/-- The products generated for one ordered pair: the deterministic
product for `maximal_finite_coordinate` `0 | 1`, the finite-aware
`get_products` otherwise (the `match` of
`close_by_product_and_iteration`). -/
def products_of (maximal_finite_coordinate : ℕ) (f g : Flow) : List Flow :=
  match maximal_finite_coordinate with
  | 0 | 1 => [Flow.product f g]
  | _ => get_products f g maximal_finite_coordinate

/-- One saturation round of `close_by_product_and_iteration`: all
two-sided products and all iterations of idempotent members.  The
source drains work queues instead; the processing order only affects
which of several mutually covering representatives survive, not the
downward closure of the result. -/
def close_round (K : ℕ) (flows : List Flow) : List Flow :=
  (flows.flatMap fun f => flows.flatMap fun g =>
      products_of K f g ++ products_of K g f) ++
    (flows.filter fun f => f.is_idempotent).map fun f => Flow.iteration 0 f

/-- `close_by_product_and_iteration` as a fuelled fixpoint loop (the
source loops until no uncovered flow appears). -/
def close_loop : ℕ → ℕ → List Flow → List Flow
  | 0, _, flows => flows
  | fuel + 1, K, flows =>
    let new_flows := (close_round K flows).filter fun f =>
      !(is_covered f flows)
    if new_flows.isEmpty then flows
    else close_loop fuel K (flows ++ new_flows)

/-- `FlowSemigroup::compute`. -/
def compute (flows : List Flow) (maximal_finite_coordinate fuel : ℕ) :
    FlowSemigroup :=
  minimize (close_loop fuel maximal_finite_coordinate flows)

/-- `FlowSemigroup::get_path_problem_solution`. -/
def get_path_problem_solution (sg : FlowSemigroup) (target : List ℕ) :
    DownSet :=
  DownSet.from_vec (sg.map fun flow => flow.pre_image target)

end FlowSemigroup

/-! ### `src/strategy.rs` -/

/-- A strategy maps letters to downsets of configurations where the
letter may be played (`HashMap<Letter, _>` as an association list). -/
abbrev Strategy := List (String × DownSet)

namespace Strategy

/-- `Strategy::get_maximal_strategy`. -/
def get_maximal_strategy (dim : ℕ) (letters : List String) : Strategy :=
  letters.map fun l => (l, [Ideal.new dim OMEGA])

/-- `Strategy::is_defined_on`. -/
def is_defined_on (σ : Strategy) (source : Ideal) : Bool :=
  σ.any fun p => DownSet.contains p.2 source

/-- The downset a letter's entry is restricted to inside
`Strategy::restrict_to`: the safe pre-image of `safe` under the
letter's graph. -/
def letter_restriction (safe : DownSet)
    (edges_per_letter : List (String × Graph))
    (maximal_finite_value : ℕ) (a : String) : DownSet :=
  DownSet.safe_pre_image safe
    ((edges_per_letter.lookup a).getD (Graph.mk 0 []))
    maximal_finite_value

/-- `Strategy::restrict_to`: every letter's downset is restricted to
the safe pre-image of `safe` under that letter's graph; the flag ORs
the per-letter `changed` results. -/
def restrict_to (σ : Strategy) (safe : DownSet)
    (edges_per_letter : List (String × Graph))
    (maximal_finite_value : ℕ) : Strategy × Bool :=
  (σ.map fun p =>
      (p.1, (DownSet.restrict_to p.2
        (letter_restriction safe edges_per_letter maximal_finite_value
          p.1)).1),
    σ.any fun p =>
      (DownSet.restrict_to p.2
        (letter_restriction safe edges_per_letter maximal_finite_value
          p.1)).2)

end Strategy

/-! ### `src/nfa.rs` -/

/-- An NFA: named states, `HashSet`s of initial and accepting state
indices, and a transition vector `(from, label, to)`. -/
structure Nfa where
  states : List String
  initial : List ℕ
  accepting : List ℕ
  transitions : List (ℕ × String × ℕ)
deriving DecidableEq, Repr

namespace Nfa

/-- `Nfa::nb_states`. -/
def nb_states (nfa : Nfa) : ℕ := nfa.states.length

/-- `Nfa::get_alphabet`: letters in order of first appearance. -/
def get_alphabet (nfa : Nfa) : List String :=
  nfa.transitions.foldl
    (fun letters t =>
      if t.2.1 ∈ letters then letters else letters ++ [t.2.1])
    []

/-- `Nfa::get_support`: the graph of a letter (`Graph::new` collects
the filtered transition list into an edge set). -/
def get_support (nfa : Nfa) (action : String) : Graph :=
  Graph.from_vec nfa.states.length
    ((nfa.transitions.filter fun t => t.2.1 == action).map fun t =>
      (t.1, t.2.2))

/-- `Nfa::get_edges`. -/
def get_edges (nfa : Nfa) : List (String × Graph) :=
  nfa.get_alphabet.map fun action => (action, nfa.get_support action)

/-- `Nfa::initial_states`. -/
def initial_states (nfa : Nfa) : List ℕ := nfa.initial

/-- `Nfa::final_states`. -/
def final_states (nfa : Nfa) : List ℕ := nfa.accepting

/-- Modelled from the spec (claim C5): completion of the NFA by a
fresh sink state that receives every missing `(state, letter)`
transition, the sink's own loops included.  No function of the source
performs this. -/
def complete_spec (nfa : Nfa) : Nfa :=
  let sink := nfa.states.length
  let missing := nfa.get_alphabet.flatMap fun a =>
    (List.range (nfa.states.length + 1)).filterMap fun s =>
      if (nfa.transitions.filter fun t =>
          t.1 == s && t.2.1 == a).isEmpty then
        some (s, a, sink)
      else none
  { states := nfa.states ++ ["⊥"],
    initial := nfa.initial,
    accepting := nfa.accepting,
    transitions := nfa.transitions ++ missing }

end Nfa

/-! ### `src/solver.rs` -/

/-- `SolverOutput`. -/
inductive SolverOutput where
  | YesNo : SolverOutput
  | Strategy : SolverOutput
deriving DecidableEq, Repr

/-- `Solution` as built by `solver::solve`. -/
structure Solution where
  nfa : Nfa
  is_controllable : Bool
  winning_strategy : Strategy
  semigroup : FlowSemigroup
deriving DecidableEq, Repr

/-- `solver::get_omega_ideal`. -/
def get_omega_ideal (dim : ℕ) (states : List ℕ) : Ideal :=
  states.foldl (fun ideal state => Ideal.set ideal state OMEGA)
    (Ideal.new dim C0)

/-- `solver::compute_action_flows`. -/
def compute_action_flows (σ : Strategy)
    (edges : List (String × Graph)) : List Flow :=
  σ.flatMap fun p =>
    p.2.flatMap fun ideal =>
      Flow.from_domain_and_edges ideal
        ((edges.lookup p.1).getD (Graph.mk 0 []))

/-- `solver::update_strategy`: compute the semigroup of the strategy's
action flows and the winning downset of the path problem, then restrict
the strategy; returns `(changed, semigroup, strategy)`. -/
def update_strategy (dim : ℕ) (σ : Strategy) (final_states : List ℕ)
    (edges : List (String × Graph)) (maximal_finite_value fuel : ℕ) :
    Bool × FlowSemigroup × Strategy :=
  let final_ideal := get_omega_ideal dim final_states
  let action_flows := compute_action_flows σ edges
  let semigroup :=
    FlowSemigroup.compute action_flows maximal_finite_value fuel
  let winning_downset :=
    DownSet.minimize
      (DownSet.round_down
        (DownSet.insert
          (FlowSemigroup.get_path_problem_solution semigroup final_states)
          final_ideal)
        maximal_finite_value dim)
  let r := Strategy.restrict_to σ winning_downset edges maximal_finite_value
  (r.2, semigroup, r.1)

/-- The `loop` of `compute_maximal_winning_strategy`, fuelled. -/
def cmws_loop : ℕ → ℕ → ℕ → Strategy → List ℕ →
    List (String × Graph) → Strategy × FlowSemigroup
  | _, 0, _, σ, _, _ => (σ, [])
  | cfuel, lf + 1, dim, σ, finals, edges =>
    let r := update_strategy dim σ finals edges dim cfuel
    if r.1 then cmws_loop cfuel lf dim r.2.2 finals edges
    else (r.2.2, r.2.1)

/-- `solver::compute_maximal_winning_strategy` (the bound is `dim`). -/
def compute_maximal_winning_strategy (fuel dim : ℕ)
    (final_states : List ℕ) (edges : List (String × Graph))
    (letters : List String) : Strategy × FlowSemigroup :=
  cmws_loop fuel fuel dim (Strategy.get_maximal_strategy dim letters)
    final_states edges

/-- Inner `loop` of `compute_control_problem_solution`, fuelled; breaks
when the strategy is stable or no longer covers the source. -/
def ccps_inner : ℕ → ℕ → ℕ → Ideal → Strategy → List ℕ →
    List (String × Graph) → ℕ → Strategy × FlowSemigroup
  | _, 0, _, _, σ, _, _, _ => (σ, [])
  | cfuel, lf + 1, dim, source, σ, finals, edges, K =>
    let r := update_strategy dim σ finals edges K cfuel
    if !r.1 || !(Strategy.is_defined_on r.2.2 source) then (r.2.2, r.2.1)
    else ccps_inner cfuel lf dim source r.2.2 finals edges K

/-- One `maximal_finite_value` of the sweep in
`compute_control_problem_solution`; the flag records the `break` once
the strategy covers the source. -/
def ccps_step (cfuel lfuel dim : ℕ) (source : Ideal) (finals : List ℕ)
    (edges : List (String × Graph))
    (acc : (Strategy × FlowSemigroup) × Bool) (K : ℕ) :
    (Strategy × FlowSemigroup) × Bool :=
  if acc.2 then acc
  else
    (ccps_inner cfuel lfuel dim source acc.1.1 finals edges K,
      Strategy.is_defined_on
        (ccps_inner cfuel lfuel dim source acc.1.1 finals edges K).1
        source)

/-- `solver::compute_control_problem_solution`: sweep
`maximal_finite_value` over `1 .. dim - 1`. -/
def compute_control_problem_solution (cfuel lfuel dim : ℕ)
    (source : Ideal) (final_states : List ℕ)
    (edges : List (String × Graph)) (letters : List String) :
    Strategy × FlowSemigroup :=
  ((List.range' 1 (dim - 1)).foldl
    (ccps_step cfuel lfuel dim source final_states edges)
    ((Strategy.get_maximal_strategy dim letters, ([] : FlowSemigroup)),
      false)).1

/-- `solver::solve` (fuelled loops: any fuel exceeding the number of
iterations the source's loops perform yields the source's result). -/
def solve (nfa : Nfa) (output : SolverOutput) (fuel : ℕ) : Solution :=
  let dim := nfa.nb_states
  let source := get_omega_ideal dim nfa.initial_states
  let final_states := nfa.final_states
  let edges := nfa.get_edges
  let letters := nfa.get_alphabet
  let sr :=
    match output with
    | SolverOutput.Strategy =>
      compute_maximal_winning_strategy fuel dim final_states edges letters
    | SolverOutput.YesNo =>
      compute_control_problem_solution fuel fuel dim source final_states
        edges letters
  { nfa := nfa,
    is_controllable := Strategy.is_defined_on sr.1 source,
    winning_strategy := sr.1,
    semigroup := sr.2 }

/-! ### Claim C8: monotone strategy refinement. -/

theorem length_of_mem_safe_pre_image {D : DownSet} {g : Graph} {K : ℕ}
    {x : Ideal} (hx : x ∈ DownSet.safe_pre_image D g K) :
    x.length = g.dim := by
  unfold DownSet.safe_pre_image at hx
  split at hx
  · simp at hx
  · have h1 := DownSet.mem_minimize hx
    rw [DownSet.mem_foldl_insert] at h1
    rcases h1 with h1 | h1
    · simp at h1
    · exact length_of_mem_candidates (List.mem_of_mem_filter h1)

/-- **C8.**  Strategy refinement is monotone: `Strategy::restrict_to`
maps each letter entry `(a, D)` of the strategy to the entry
`(a, D')` obtained by `DownSet::restrict_to` against the safe
pre-image of that letter, and `D'` only shrinks in the
downward-closure sense — every configuration contained in `D'` was
already contained in `D`.  Across solver iterations, which only apply
this operation, each letter's downset therefore never grows. -/
theorem c8_strategy_restrict_monotone (σ : Strategy) (safe : DownSet)
    (edges : List (String × Graph)) (K n : ℕ) (p : String × DownSet)
    (hp : p ∈ σ) (hD : ∀ I ∈ p.2, I.length = n)
    (hg : ((edges.lookup p.1).getD (Graph.mk 0 [])).dim = n) (x : Ideal) :
    (p.1, (DownSet.restrict_to p.2
        (Strategy.letter_restriction safe edges K p.1)).1)
      ∈ (Strategy.restrict_to σ safe edges K).1 ∧
    (DownSet.contains (DownSet.restrict_to p.2
        (Strategy.letter_restriction safe edges K p.1)).1 x = true →
      DownSet.contains p.2 x = true) := by
  constructor
  · exact List.mem_map.2 ⟨p, hp, rfl⟩
  · intro h
    refine DownSet.contains_restrict_to p.2 _ x hD ?_ h
    intro J hJ
    unfold Strategy.letter_restriction at hJ
    have hlen := length_of_mem_safe_pre_image hJ
    rw [hlen, hg]

/-- Witness for C8 at a concrete strategy, safe set and letter graph. -/
theorem c8_strategy_restrict_monotone_witness :
    (("a"), (DownSet.restrict_to [[OMEGA]]
        (Strategy.letter_restriction [[Coef.value 0]]
          [(("a"), Graph.mk 1 [(0, 0)])] 1 ("a"))).1)
      ∈ (Strategy.restrict_to [(("a"), [[OMEGA]])] [[Coef.value 0]]
          [(("a"), Graph.mk 1 [(0, 0)])] 1).1 ∧
    (DownSet.contains (DownSet.restrict_to [[OMEGA]]
        (Strategy.letter_restriction [[Coef.value 0]]
          [(("a"), Graph.mk 1 [(0, 0)])] 1 ("a"))).1 [Coef.value 2] = true →
      DownSet.contains [[OMEGA]] [Coef.value 2] = true) :=
  c8_strategy_restrict_monotone [(("a"), [[OMEGA]])] [[Coef.value 0]]
    [(("a"), Graph.mk 1 [(0, 0)])] 1 1 (("a"), [[OMEGA]])
    (by decide) (by decide) (by decide) [Coef.value 2]

/-! ### Claims C5, C6, C10: behaviour of `solve`. -/

theorem ccps_inner_nil_strategy (cf lf dim : ℕ) (source : Ideal)
    (finals : List ℕ) (edges : List (String × Graph)) (K : ℕ) :
    (ccps_inner cf lf dim source [] finals edges K).1 = [] := by
  cases lf with
  | zero => rfl
  | succ n => rfl

theorem ccps_step_nil (cf lf dim : ℕ) (source : Ideal) (finals : List ℕ)
    (edges : List (String × Graph)) (acc : (Strategy × FlowSemigroup) × Bool)
    (K : ℕ) (h : acc.1.1 = []) :
    (ccps_step cf lf dim source finals edges acc K).1.1 = [] := by
  unfold ccps_step
  split
  · exact h
  · show (ccps_inner cf lf dim source acc.1.1 finals edges K).1 = []
    rw [h]
    exact ccps_inner_nil_strategy cf lf dim source finals edges K

theorem ccps_foldl_nil (cf lf dim : ℕ) (source : Ideal) (finals : List ℕ)
    (edges : List (String × Graph)) (Ks : List ℕ)
    (acc : (Strategy × FlowSemigroup) × Bool) (h : acc.1.1 = []) :
    (Ks.foldl (ccps_step cf lf dim source finals edges) acc).1.1 = [] := by
  induction Ks generalizing acc with
  | nil => exact h
  | cons K Ks ih =>
    rw [List.foldl_cons]
    exact ih _ (ccps_step_nil cf lf dim source finals edges acc K h)

theorem cmws_loop_nil (cf lf dim : ℕ) (finals : List ℕ)
    (edges : List (String × Graph)) :
    (cmws_loop cf lf dim [] finals edges).1 = [] := by
  cases lf with
  | zero => rfl
  | succ n => rfl

/-- **C6 (code bug).**  For every NFA with an empty alphabet, `solve`
reports uncontrollable in both modes and for every fuel: the strategy
map is empty (`get_maximal_strategy dim []`), it stays empty through
every refinement, and `is_defined_on` of an empty map is `false` — the
initial ω-vector is never compared with the accepting ω-vector, so the
spec's "controllable iff `I ⊆ F`" fails on every empty-alphabet NFA
whose initial states are all accepting (see the witness). -/
theorem c6_solve_empty_alphabet_uncontrollable (nfa : Nfa)
    (output : SolverOutput) (fuel : ℕ) (hA : nfa.get_alphabet = []) :
    (solve nfa output fuel).is_controllable = false := by
  cases output with
  | Strategy =>
    show Strategy.is_defined_on
      (compute_maximal_winning_strategy fuel nfa.nb_states nfa.final_states
        nfa.get_edges nfa.get_alphabet).1
      (get_omega_ideal nfa.nb_states nfa.initial_states) = false
    rw [hA]
    unfold compute_maximal_winning_strategy
    rw [show Strategy.get_maximal_strategy nfa.nb_states ([] : List String)
      = [] from rfl]
    rw [cmws_loop_nil]
    rfl
  | YesNo =>
    show Strategy.is_defined_on
      (compute_control_problem_solution fuel fuel nfa.nb_states
        (get_omega_ideal nfa.nb_states nfa.initial_states) nfa.final_states
        nfa.get_edges nfa.get_alphabet).1
      (get_omega_ideal nfa.nb_states nfa.initial_states) = false
    rw [hA]
    unfold compute_control_problem_solution
    rw [ccps_foldl_nil fuel fuel nfa.nb_states
      (get_omega_ideal nfa.nb_states nfa.initial_states) nfa.final_states
      nfa.get_edges (List.range' 1 (nfa.nb_states - 1))
      ((Strategy.get_maximal_strategy nfa.nb_states [],
        ([] : FlowSemigroup)), false) rfl]
    rfl

/-- Witness for C6: the one-state NFA with no transitions, whose single
state is initial and accepting; `I ⊆ F` holds, yet both modes report
uncontrollable. -/
theorem c6_solve_empty_alphabet_uncontrollable_witness :
    (Nfa.mk ["q"] [0] [0] []).get_alphabet = [] ∧
    Ideal.le
      (get_omega_ideal (Nfa.mk ["q"] [0] [0] []).nb_states
        (Nfa.mk ["q"] [0] [0] []).initial_states)
      (get_omega_ideal (Nfa.mk ["q"] [0] [0] []).nb_states
        (Nfa.mk ["q"] [0] [0] []).final_states) = true ∧
    (solve (Nfa.mk ["q"] [0] [0] []) SolverOutput.Strategy 3).is_controllable
      = false ∧
    (solve (Nfa.mk ["q"] [0] [0] []) SolverOutput.YesNo 3).is_controllable
      = false :=
  ⟨rfl, by decide,
    c6_solve_empty_alphabet_uncontrollable (Nfa.mk ["q"] [0] [0] [])
      SolverOutput.Strategy 3 rfl,
    c6_solve_empty_alphabet_uncontrollable (Nfa.mk ["q"] [0] [0] [])
      SolverOutput.YesNo 3 rfl⟩

theorem ideal_le_new_omega (x : Ideal) (dim : ℕ) :
    Ideal.le x (Ideal.new dim OMEGA) = true := by
  rw [Ideal.le_iff_coords]
  intro i hi
  have hlen : (Ideal.new dim OMEGA : Ideal).length = dim := by
    simp [Ideal.new]
  rw [hlen] at hi
  have hid : i < dim := lt_of_lt_of_le hi (min_le_right _ _)
  have hget : Ideal.get (Ideal.new dim OMEGA) i = OMEGA := by
    unfold Ideal.get Ideal.new
    rw [List.getD_eq_getElem _ _ (by simpa using hid)]
    simp
  rw [hget]
  exact Coef.le_omega _

/-- **C10.**  For every NFA with exactly one state and a non-empty
alphabet, yes/no mode performs no refinement at all: the sweep over
`maximal_finite_value = 1 .. dim - 1` is empty for `dim = 1`, so the
strategy stays the maximal strategy, the semigroup stays empty, and
`solve` reports controllable whether or not the single state is
accepting. -/
theorem c10_single_state_controllable (nfa : Nfa) (fuel : ℕ)
    (h1 : nfa.nb_states = 1) (hA : nfa.get_alphabet ≠ []) :
    (solve nfa SolverOutput.YesNo fuel).winning_strategy
        = Strategy.get_maximal_strategy nfa.nb_states nfa.get_alphabet ∧
      (solve nfa SolverOutput.YesNo fuel).semigroup = [] ∧
      (solve nfa SolverOutput.YesNo fuel).is_controllable = true := by
  have hempty : List.range' 1 (nfa.nb_states - 1) = [] := by
    rw [h1]
    rfl
  have hccps : compute_control_problem_solution fuel fuel nfa.nb_states
      (get_omega_ideal nfa.nb_states nfa.initial_states) nfa.final_states
      nfa.get_edges nfa.get_alphabet
        = (Strategy.get_maximal_strategy nfa.nb_states nfa.get_alphabet,
          ([] : FlowSemigroup)) := by
    unfold compute_control_problem_solution
    rw [hempty]
    rfl
  refine ⟨?_, ?_, ?_⟩
  · show (compute_control_problem_solution fuel fuel nfa.nb_states
      (get_omega_ideal nfa.nb_states nfa.initial_states) nfa.final_states
      nfa.get_edges nfa.get_alphabet).1 = _
    rw [hccps]
  · show (compute_control_problem_solution fuel fuel nfa.nb_states
      (get_omega_ideal nfa.nb_states nfa.initial_states) nfa.final_states
      nfa.get_edges nfa.get_alphabet).2 = _
    rw [hccps]
  · show Strategy.is_defined_on
      (compute_control_problem_solution fuel fuel nfa.nb_states
        (get_omega_ideal nfa.nb_states nfa.initial_states) nfa.final_states
        nfa.get_edges nfa.get_alphabet).1
      (get_omega_ideal nfa.nb_states nfa.initial_states) = true
    rw [hccps]
    cases hL : nfa.get_alphabet with
    | nil => exact absurd hL hA
    | cons a as =>
      unfold Strategy.get_maximal_strategy Strategy.is_defined_on
      simp only [List.map_cons, List.any_cons]
      rw [Bool.or_eq_true]
      left
      unfold DownSet.contains
      simp [ideal_le_new_omega]

/-- Witness for C10: a single-state NFA with an `a`-loop; the state is
not accepting, still the solver reports controllable with the maximal
strategy untouched. -/
theorem c10_single_state_controllable_witness :
    (solve (Nfa.mk ["q"] [0] [] [(0, "a", 0)])
        SolverOutput.YesNo 3).winning_strategy
        = Strategy.get_maximal_strategy
            (Nfa.mk ["q"] [0] [] [(0, "a", 0)]).nb_states
            (Nfa.mk ["q"] [0] [] [(0, "a", 0)]).get_alphabet ∧
      (solve (Nfa.mk ["q"] [0] [] [(0, "a", 0)])
        SolverOutput.YesNo 3).semigroup = [] ∧
      (solve (Nfa.mk ["q"] [0] [] [(0, "a", 0)])
        SolverOutput.YesNo 3).is_controllable = true :=
  c10_single_state_controllable (Nfa.mk ["q"] [0] [] [(0, "a", 0)]) 3
    rfl (by decide)

/-- **C5 (amended).**  No completion is performed before solving:
`solve` returns the input NFA unchanged in the solution, and the
per-letter graphs it derives (`Nfa::get_edges`) all have dimension
`nb_states` of the input — no sink state is ever added.  The claimed
completion is refuted by `c5_no_sink_added`. -/
theorem c5_solve_no_completion (nfa : Nfa) (output : SolverOutput)
    (fuel : ℕ) (p : String × Graph) (hp : p ∈ nfa.get_edges) :
    (solve nfa output fuel).nfa = nfa ∧ p.2.dim = nfa.nb_states := by
  constructor
  · cases output <;> rfl
  · unfold Nfa.get_edges at hp
    rw [List.mem_map] at hp
    obtain ⟨a, ha, rfl⟩ := hp
    rfl

/-- Witness for C5 at the incomplete three-state NFA. -/
theorem c5_solve_no_completion_witness :
    (solve (Nfa.mk ["0", "1", "2"] [0] [2]
        [(0, "a", 1), (0, "a", 2), (1, "a", 2)]) SolverOutput.Strategy 5).nfa
        = Nfa.mk ["0", "1", "2"] [0] [2]
            [(0, "a", 1), (0, "a", 2), (1, "a", 2)] ∧
      (("a"), (Nfa.mk ["0", "1", "2"] [0] [2]
          [(0, "a", 1), (0, "a", 2), (1, "a", 2)]).get_support ("a")).2.dim
        = (Nfa.mk ["0", "1", "2"] [0] [2]
            [(0, "a", 1), (0, "a", 2), (1, "a", 2)]).nb_states :=
  c5_solve_no_completion
    (Nfa.mk ["0", "1", "2"] [0] [2] [(0, "a", 1), (0, "a", 2), (1, "a", 2)])
    SolverOutput.Strategy 5
    (("a"), (Nfa.mk ["0", "1", "2"] [0] [2]
      [(0, "a", 1), (0, "a", 2), (1, "a", 2)]).get_support ("a"))
    (by decide)

/-- **C5 (counterexample).**  The three-state NFA with transitions
`0 -a-> 1`, `0 -a-> 2`, `1 -a-> 2` has no successor for `(2, a)`.  The
spec's completion would add a sink (4 states, `2 -a-> ⊥`, `⊥ -a-> ⊥`);
`solve` instead operates on the unchanged 3-state NFA — the solution
carries the input NFA as is, and the whole pipeline runs at dimension 3
(the solver reports uncontrollable, as the repository's own test
expects). -/
theorem c5_no_sink_added :
    (Nfa.mk ["0", "1", "2"] [0] [2]
        [(0, "a", 1), (0, "a", 2), (1, "a", 2)]).get_alphabet = ["a"] ∧
    ((Nfa.mk ["0", "1", "2"] [0] [2]
        [(0, "a", 1), (0, "a", 2), (1, "a", 2)]).get_support ("a")).get_successors 2
      = [] ∧
    (solve (Nfa.mk ["0", "1", "2"] [0] [2]
        [(0, "a", 1), (0, "a", 2), (1, "a", 2)]) SolverOutput.Strategy 5).nfa
      = Nfa.mk ["0", "1", "2"] [0] [2]
          [(0, "a", 1), (0, "a", 2), (1, "a", 2)] ∧
    (solve (Nfa.mk ["0", "1", "2"] [0] [2]
        [(0, "a", 1), (0, "a", 2), (1, "a", 2)])
      SolverOutput.Strategy 5).is_controllable = false ∧
    (Nfa.complete_spec (Nfa.mk ["0", "1", "2"] [0] [2]
        [(0, "a", 1), (0, "a", 2), (1, "a", 2)])).nb_states = 4 ∧
    ((Nfa.complete_spec (Nfa.mk ["0", "1", "2"] [0] [2]
        [(0, "a", 1), (0, "a", 2), (1, "a", 2)])).get_support ("a")).get_successors 2
      = [3] ∧
    ((Nfa.complete_spec (Nfa.mk ["0", "1", "2"] [0] [2]
        [(0, "a", 1), (0, "a", 2), (1, "a", 2)])).get_support ("a")).get_successors 3
      = [3] := by
  exact ⟨by decide, by decide, rfl, by decide, by decide, by decide,
    by decide⟩

end Schaeppert
